import Mathlib

/-!
Verification development for the Spellcoder chunked-world engine
(`src/main.rs`): the `Pixel`/`Chunk`/`World` data model, binary-search
cell lookup, on-demand chunk generation, and the visible-chunk-range
computation.

Modelling conventions, fixed once and used throughout:

* Rust `u8` fields are modelled as `ℕ`; wherever the source performs an
  `as u8` cast of a wider integer, the model applies `% 256` at the same
  place.  Values already of type `u8` in the source carry no cast.
* Rust `i64` is modelled as `ℤ`; `x as usize` (a 64-bit two's-complement
  reinterpretation) is modelled as `(x.emod 2^64).toNat`.
* Rust `f64`/`f32` arithmetic on noise samples is modelled exactly over
  `ℚ`; the third-party Perlin noise generator (`worldgen` crate) is an
  external pure function and is kept abstract as a parameter of type
  `ℚ → ℚ → ℕ → ℚ` matching `noise.generate(x, y, seed)`.
* Rust `slice::binary_search_by` is modelled by `bsGo`/`binarySearchBy`
  below, a direct transcription of its loop.
* Rust `slice::sort_by` is a stable sort with respect to the comparator;
  it is modelled by `List.insertionSort`, which is a stable sort and
  hence computes the same function on every comparator used here.
* Out-of-bounds `Vec` indexing panics in Rust; the model makes those
  reads/writes total (`List.getD` with a default, `List.set` as a no-op
  out of range).  All claims are settled on in-bounds executions.
-/

set_option maxRecDepth 40000
set_option maxHeartbeats 2000000

namespace Spellcoder

/-- Three-way comparison on a linear order, as Rust's `Ord::cmp`
(`i64::cmp`, `u8::cmp`). -/
def cmp3 {K : Type} [LinearOrder K] (a b : K) : Ordering :=
  if a < b then Ordering.lt else if a = b then Ordering.eq else Ordering.gt

/-- Loop of Rust `slice::binary_search_by`: `left`/`right` bracket the
remaining search interval, `g i` is the comparator applied to element `i`
(comparing it with the target).  `fuel` only forces termination; it is
always called with enough fuel (`right - left ≤ fuel`). -/
def bsGo (g : ℕ → Ordering) : ℕ → ℕ → ℕ → Except ℕ ℕ
  | 0, left, _ => Except.error left
  | fuel+1, left, right =>
    if left < right then
      let mid := left + (right - left) / 2
      match g mid with
      | Ordering.lt => bsGo g fuel (mid+1) right
      | Ordering.gt => bsGo g fuel left mid
      | Ordering.eq => Except.ok mid
    else Except.error left

/-- Rust `slice::binary_search_by`: `Ok i` if element `i` compares equal,
`Err j` with `j` the sorted insertion index otherwise. -/
def binarySearchBy {α : Type} [Inhabited α] (g : α → Ordering) (l : List α) : Except ℕ ℕ :=
  bsGo (fun i => g (l.getD i default)) l.length 0 l.length

/-- Rust `x as usize` applied to an `i64`: the two's-complement bit
pattern read as an unsigned 64-bit integer, i.e. `x mod 2^64`. -/
def usizeOfI64 (x : ℤ) : ℕ := (x.emod (2^64)).toNat

/-- Rust arithmetic right shift `x >> k` on `i64` (sign-extending). -/
def sarI64 (x : ℤ) (k : ℕ) : ℤ := x >>> k

/-- Rust `v as u8` applied to an `f64` value (here exactly represented as
a rational): truncate toward zero and saturate to `[0, 255]`. -/
def f64AsU8 (q : ℚ) : ℕ := if q < 0 then 0 else min 255 (Int.toNat ⌊q⌋)

/-- Rust `f64::clamp(lo, hi)`. -/
def fclamp (q lo hi : ℚ) : ℚ := if q < lo then lo else if hi < q then hi else q

/-- Rust `v as i64` applied to an `f32` value: truncation toward zero. -/
def f32AsI64 (q : ℚ) : ℤ := if q < 0 then -⌊-q⌋ else ⌊q⌋

/-- The `interpolation` crate's `cubic_out` easing function
`t ↦ (t-1)^3 + 1`. -/
def cubicOut (t : ℚ) : ℚ := (t - 1)^3 + 1

/-- The `SCALE` constant of `main.rs` (`const SCALE: i32 = 4`). -/
def SCALE : ℚ := 4

/-- `PixelMaterial` of `main.rs`. -/
inductive PixelMaterial : Type
  | AIR : PixelMaterial
  | BLOCK : PixelMaterial
deriving DecidableEq

/-- RGBA color (`raylib::ffi::Color`, four `u8` fields). -/
structure Color : Type where
  r : ℕ
  g : ℕ
  b : ℕ
  a : ℕ
deriving DecidableEq

/-- `Pixel` of `main.rs`: local coordinates inside a chunk (`u8` fields)
plus material and color. -/
structure Pixel : Type where
  x : ℕ
  y : ℕ
  material : PixelMaterial
  color : Color
deriving DecidableEq

instance : Inhabited Pixel := ⟨⟨0, 0, PixelMaterial.AIR, ⟨0, 0, 0, 0⟩⟩⟩

/-- The column order used by `Pixel::compare_by_y` /
`Chunk::add_pixel`'s `sort_by`: compare the `y` fields. -/
def pixelLE (a b : Pixel) : Prop := a.y ≤ b.y

instance : DecidableRel pixelLE := fun a b => inferInstanceAs (Decidable (a.y ≤ b.y))

instance : IsTotal Pixel pixelLE := ⟨fun a b => Nat.le_total a.y b.y⟩

instance : IsTrans Pixel pixelLE := ⟨fun _ _ _ h1 h2 => Nat.le_trans h1 h2⟩

/-- `Chunk` of `main.rs`: 16 per-column pixel lists plus the chunk's
world-coordinate origin (`x`, `y` are multiples of 16 for generated
chunks). -/
structure Chunk : Type where
  pixels : List (List Pixel)
  x : ℤ
  y : ℤ

instance : Inhabited Chunk := ⟨⟨[], 0, 0⟩⟩

/-- `Chunk::new`: 16 empty columns. -/
def Chunk.new (x y : ℤ) : Chunk := ⟨List.replicate 16 [], x, y⟩

/-- Read of `self.pixels[x]` (total model of the indexing). -/
def Chunk.column (c : Chunk) (x : ℕ) : List Pixel := c.pixels.getD x []

/-- Stable sort of one column by the `y` field, as `sort_by(|a, b|
a.compare_by_y(&b))`. -/
def sortByY (l : List Pixel) : List Pixel := List.insertionSort pixelLE l

/-- `Chunk::add_pixel`: push onto column `pixel.x`, then re-sort that
column by the cross-axis coordinate. -/
def Chunk.add_pixel (c : Chunk) (p : Pixel) : Chunk :=
  { c with pixels := c.pixels.set p.x (sortByY (c.column p.x ++ [p])) }

/-- `Chunk::get_pixel`: binary search column `x` for the key `y as u8`;
`Ok` the found pixel or `Err` the insertion index. -/
def Chunk.get_pixel (c : Chunk) (x y : ℕ) : Except ℕ Pixel :=
  match binarySearchBy (fun a => cmp3 a.y (y % 256)) (c.column x) with
  | Except.ok i => Except.ok ((c.column x).getD i default)
  | Except.error i => Except.error i

/-- `Chunk::set_pixel`: binary search column `pixel.x` for key `pixel.y`;
overwrite in place on a hit, fall back to `add_pixel` on a miss. -/
def Chunk.set_pixel (c : Chunk) (p : Pixel) : Chunk :=
  match binarySearchBy (fun a => cmp3 a.y p.y) (c.column p.x) with
  | Except.ok i => { c with pixels := c.pixels.set p.x ((c.column p.x).set i p) }
  | Except.error _ => c.add_pixel p

/-- The pixel built by one iteration of `Chunk::generate` for local
coordinate `(x, y)`: sample the primary noise at the world-space
coordinate, classify by the fixed threshold bands, and derive the color
from a secondary sample.  `noise` abstracts
`PerlinNoise::generate(x, y, seed)`. -/
def genPixel (chunk_x chunk_y : ℤ) (noise : ℚ → ℚ → ℕ → ℚ) (seed : ℕ) (x y : ℕ) : Pixel :=
  let wx : ℚ := ((x : ℤ) + chunk_x * 16 : ℤ)
  let wy : ℚ := ((y : ℤ) + chunk_y * 16 : ℤ)
  let val := noise (wx / 320) (wy / 128) seed
  if val > 80/256 then
    let gval := f64AsU8 (noise (wx / 32) (wy / 32) seed * 16 + 128)
    ⟨x, y, PixelMaterial.BLOCK, ⟨gval, gval, gval, 255⟩⟩
  else if val > 64/256 then
    let gval := f64AsU8 (noise (wx / 32) (wy / 32) seed * 32 + 128)
    ⟨x, y, PixelMaterial.BLOCK, ⟨0, gval, 0, 255⟩⟩
  else if val < 64/256 then
    let gval := noise (wx / 96) (wy / 32) seed
    ⟨x, y, PixelMaterial.AIR,
      ⟨255, 255, 255, f64AsU8 (fclamp (gval * 200 * cubicOut (cubicOut (64/256 - val))) 0 255)⟩⟩
  else
    ⟨x, y, PixelMaterial.AIR, ⟨0, 0, 0, 0⟩⟩

/-- `Chunk::generate`: start from `Chunk::new(chunk_x*16, chunk_y*16)` and
`add_pixel` one classified pixel for every local `(x, y)` in
`[0,16) × [0,16)`, iterating `x` outer, `y` inner. -/
def Chunk.generate (chunk_x chunk_y : ℤ) (noise : ℚ → ℚ → ℕ → ℚ) (seed : ℕ) : Chunk :=
  (List.range 16).foldl
    (fun c x =>
      (List.range 16).foldl
        (fun c2 y => c2.add_pixel (genPixel chunk_x chunk_y noise seed x y)) c)
    (Chunk.new (chunk_x * 16) (chunk_y * 16))

attribute [irreducible] Chunk.generate

/-- `World` of `main.rs`: two-level chunk storage (rows of chunks), the
noise field, the seed, and the deferred-sort dirty flag.  The `rng` field
is only used once to draw the seed and is not modelled. -/
structure World : Type where
  chunks : List (List Chunk)
  noise : ℚ → ℚ → ℕ → ℚ
  seed : ℕ
  modified : Bool

/-- `World::new` (the seed is drawn randomly in the source; it is a
parameter here). -/
def World.new (noise : ℚ → ℚ → ℕ → ℚ) (seed : ℕ) : World := ⟨[], noise, seed, false⟩

/-- The row key used by `World`'s binary searches and sorts: `row[0].y`
(total model of the indexing). -/
def rowKey (row : List Chunk) : ℤ := (row.headD default).y

/-- Shared body of `World::get_chunk` (also used, through the returned
`&mut Chunk`, by `World::set_pixel`): binary search the row list by
`row[0].y` against `y*16`, appending a fresh empty row on a miss; then
binary search that row by `chunk.x` against `x*16`, generating and
appending the chunk on a miss and setting `modified`.  Returns the row
and column indices of the resulting chunk together with the updated
world. -/
def World.findChunkIdx (w : World) (x y : ℤ) : ℕ × ℕ × World :=
  let rowRes :=
    match binarySearchBy (fun r => cmp3 (rowKey r) (y * 16)) w.chunks with
    | Except.ok r => (r, w.chunks)
    | Except.error _ => (w.chunks.length, w.chunks ++ [[]])
  let row := rowRes.1
  let chunks1 := rowRes.2
  match binarySearchBy (fun c => cmp3 c.x (x * 16)) (chunks1.getD row []) with
  | Except.ok col => (row, col, { w with chunks := chunks1 })
  | Except.error _ =>
    let newRow := chunks1.getD row [] ++ [Chunk.generate x y w.noise w.seed]
    (row, newRow.length - 1, { w with chunks := chunks1.set row newRow, modified := true })

/-- `World::get_chunk`: the located (possibly freshly generated) chunk
together with the updated world. -/
def World.get_chunk (w : World) (x y : ℤ) : Chunk × World :=
  let res := w.findChunkIdx x y
  (((res.2.2.chunks.getD res.1 []).getD res.2.1 default), res.2.2)

/-- `World::get_pixel`: map the world coordinate to a chunk via `x >> 4`
and to a local coordinate via `(x as usize) % 16`, then look the cell up
in that chunk.  `none` models the `panic!("pixel not found! (how?)")`
branch. -/
def World.get_pixel (w : World) (x y : ℤ) : Option Pixel × World :=
  let res := w.get_chunk (sarI64 x 4) (sarI64 y 4)
  match res.1.get_pixel (usizeOfI64 x % 16) (usizeOfI64 y % 16) with
  | Except.ok p => (some p, res.2)
  | Except.error _ => (none, res.2)

/-- `World::set_pixel`: locate (or generate) the chunk for `x >> 4`,
`y >> 4` and mutate it in place through `Chunk::set_pixel`. -/
def World.set_pixel (w : World) (x y : ℤ) (p : Pixel) : World :=
  let res := w.findChunkIdx (sarI64 x 4) (sarI64 y 4)
  let w1 := res.2.2
  let oldRow := w1.chunks.getD res.1 []
  { w1 with chunks := w1.chunks.set res.1 (oldRow.set res.2.1 ((oldRow.getD res.2.1 default).set_pixel p)) }

/-- `World::sort_chunks`: stable-sort the row list by `row[0].y`, then
each row by `chunk.x`, and clear the dirty flag. -/
def World.sort_chunks (w : World) : World :=
  { w with
    chunks :=
      (List.insertionSort (fun ra rb => rowKey ra ≤ rowKey rb) w.chunks).map
        (fun row => List.insertionSort (fun a b : Chunk => a.x ≤ b.x) row),
    modified := false }

/-- `get_visible_chunks` of the `WorldDraw` impl: expanded view rectangle
divided by 16 and by `SCALE`, truncated to `i64` range endpoints.  Returns
(x range, y range), each as (start, end) of a half-open range. -/
def get_visible_chunks (target offset screendims : ℚ × ℚ) : (ℤ × ℤ) × (ℤ × ℤ) :=
  let minx := (target.1 + offset.1 - 64 - screendims.1) / 16 / SCALE
  let miny := (target.2 + offset.2 - 128 - screendims.2) / 16 / SCALE
  let maxx := (target.1 + offset.1 + 64) / 16 / SCALE
  let maxy := (target.2 + offset.2 + 128) / 16 / SCALE
  ((f32AsI64 minx, f32AsI64 maxx), (f32AsI64 miny, f32AsI64 maxy))

/-- One mutating operation on a `World`, for stating reachability. -/
inductive WOp : Type
  | getChunk : ℤ → ℤ → WOp
  | setPixel : ℤ → ℤ → Pixel → WOp
  | sortChunks : WOp

/-- Apply one operation (discarding any returned value). -/
def WOp.apply (w : World) : WOp → World
  | WOp.getChunk x y => (w.get_chunk x y).2
  | WOp.setPixel x y p => w.set_pixel x y p
  | WOp.sortChunks => w.sort_chunks

/-- Run a sequence of operations from a starting world. -/
def runOps (w : World) (ops : List WOp) : World := ops.foldl WOp.apply w

/-- Total number of chunks stored in a world. -/
def totalChunks (w : World) : ℕ := (w.chunks.map List.length).sum

/-- Number of stored chunks with the given world-space origin. -/
def coordCount (w : World) (a b : ℤ) : ℕ :=
  (w.chunks.map (fun row => row.countP (fun c => c.x == a && c.y == b))).sum

/-- Multiset of the world-space origins of all stored chunks. -/
def coordBag (w : World) : Multiset (ℤ × ℤ) :=
  ((w.chunks.flatten.map (fun c => (c.x, c.y))) : List (ℤ × ℤ))

/-- Column invariant used for lookup totality: sorted by `y` and
containing every row coordinate in `[0, 16)`. -/
def ColGood (col : List Pixel) : Prop :=
  col.Pairwise pixelLE ∧ ∀ y, y < 16 → ∃ p ∈ col, p.y = y

/-- Chunk invariant established by `Chunk::generate` and preserved by
`Chunk::set_pixel`: 16 columns, each sorted and covering rows 0..15. -/
def GoodChunk (c : Chunk) : Prop :=
  c.pixels.length = 16 ∧ ∀ x, x < 16 → ColGood (c.column x)

/-- World invariant: every stored chunk satisfies `GoodChunk`. -/
def GoodWorld (w : World) : Prop :=
  ∀ row ∈ w.chunks, ∀ c ∈ row, GoodChunk c

/-- Strictly sorted columns (no duplicate row coordinates). -/
def StrictChunk (c : Chunk) : Prop :=
  c.pixels.length = 16 ∧ ∀ x, x < 16 → (c.column x).Pairwise (fun a b => a.y < b.y)

/-- The two-level chunk index is sorted by its keys (rows strictly by
`row[0].y`, each row strictly by `chunk.x`) and every chunk sits in the
row matching its own `y`. -/
def SortedWorld (w : World) : Prop :=
  w.chunks.Pairwise (fun r1 r2 => rowKey r1 < rowKey r2) ∧
    ∀ row ∈ w.chunks, row.Pairwise (fun c1 c2 => c1.x < c2.x) ∧ ∀ c ∈ row, c.y = rowKey row

/-- The world already stores a chunk for chunk coordinate `(x, y)`. -/
def HasChunk (w : World) (x y : ℤ) : Prop :=
  ∃ row ∈ w.chunks, rowKey row = y * 16 ∧ ∃ c ∈ row, c.x = x * 16

/-- Chunks in a row all carry the row's key as their `y`, and that key is
a multiple of 16 (the row's chunk-grid coordinate times 16). -/
def RowsGrouped (w : World) : Prop :=
  ∀ row ∈ w.chunks, ∀ c ∈ row, c.y = rowKey row ∧ (16 : ℤ) ∣ c.y

/-- Column `x` of a generated chunk up to row `n`. -/
def genCol (chunk_x chunk_y : ℤ) (noise : ℚ → ℚ → ℕ → ℚ) (seed : ℕ) (x n : ℕ) : List Pixel :=
  (List.range n).map (genPixel chunk_x chunk_y noise seed x)

/-- Columns of a chunk are (weakly) sorted by the cross-axis coordinate. -/
def SortedCols (c : Chunk) : Prop := ∀ x, (c.column x).Pairwise pixelLE

/-- Columns of a chunk are strictly sorted by the cross-axis coordinate. -/
def StrictCols (c : Chunk) : Prop := ∀ x, (c.column x).Pairwise (fun a b => a.y < b.y)

/-- One mutating operation on a chunk. -/
inductive ChunkOp : Type
  | addCell : Pixel → ChunkOp
  | setCell : Pixel → ChunkOp

/-- Apply one chunk operation. -/
def ChunkOp.apply (c : Chunk) : ChunkOp → Chunk
  | ChunkOp.addCell p => c.add_pixel p
  | ChunkOp.setCell p => c.set_pixel p

/-- Run a sequence of chunk operations. -/
def runChunkOps (c : Chunk) (ops : List ChunkOp) : Chunk := ops.foldl ChunkOp.apply c

/-- Every `addCell` in the sequence inserts a cross-axis coordinate that is
absent from its column at the moment of the call (`setCell` is
unrestricted). -/
def SafeOps : Chunk → List ChunkOp → Prop
  | _, [] => True
  | c, op :: ops =>
      (match op with
       | ChunkOp.addCell p => ∀ q ∈ c.column p.x, q.y ≠ p.y
       | ChunkOp.setCell _ => True) ∧ SafeOps (ChunkOp.apply c op) ops


end Spellcoder

namespace Spellcoder

/-! ### Correctness of the binary-search model -/

theorem cmp3_lt_iff {K : Type} [LinearOrder K] {a b : K} : cmp3 a b = Ordering.lt ↔ a < b := by
  unfold cmp3
  split_ifs with h1 h2
  · exact ⟨fun _ => h1, fun _ => rfl⟩
  · exact ⟨fun h => (nomatch h), fun h => absurd h h1⟩
  · exact ⟨fun h => (nomatch h), fun h => absurd h h1⟩

theorem cmp3_eq_iff {K : Type} [LinearOrder K] {a b : K} : cmp3 a b = Ordering.eq ↔ a = b := by
  unfold cmp3
  split_ifs with h1 h2
  · exact ⟨fun h => (nomatch h), fun h => absurd h (ne_of_lt h1)⟩
  · exact ⟨fun _ => h2, fun _ => rfl⟩
  · exact ⟨fun h => (nomatch h), fun h => absurd h h2⟩

theorem cmp3_gt_iff {K : Type} [LinearOrder K] {a b : K} : cmp3 a b = Ordering.gt ↔ b < a := by
  unfold cmp3
  split_ifs with h1 h2
  · exact ⟨fun h => (nomatch h), fun h => absurd h1 (asymm h)⟩
  · refine ⟨fun h => (nomatch h), fun h => absurd h ?_⟩
    rw [h2]
    exact lt_irrefl b
  · exact ⟨fun _ => lt_of_le_of_ne (le_of_not_lt h1) (Ne.symm h2), fun _ => rfl⟩

theorem bsGo_succ (g : ℕ → Ordering) (fuel left right : ℕ) :
    bsGo g (fuel+1) left right =
      if left < right then
        match g (left + (right - left) / 2) with
        | Ordering.lt => bsGo g fuel (left + (right - left) / 2 + 1) right
        | Ordering.gt => bsGo g fuel left (left + (right - left) / 2)
        | Ordering.eq => Except.ok (left + (right - left) / 2)
      else Except.error left := rfl

theorem bsGo_spec {K : Type} [LinearOrder K] (k : ℕ → K) (t : K) (n : ℕ) (g : ℕ → Ordering)
    (hg : ∀ i, i < n → g i = cmp3 (k i) t)
    (hmono : ∀ i j, i ≤ j → j < n → k i ≤ k j) :
    ∀ fuel left right, left ≤ right → right ≤ n → right - left ≤ fuel →
      (∀ i, i < left → k i < t) → (∀ i, right ≤ i → i < n → t < k i) →
      (match bsGo g fuel left right with
       | Except.ok i => i < n ∧ k i = t
       | Except.error j => j ≤ n ∧ (∀ i, i < j → k i < t) ∧ (∀ i, j ≤ i → i < n → t < k i)) := by
  intro fuel
  induction fuel with
  | zero =>
    intro left right hlr hrn hf hlo hhi
    have heq : left = right := by omega
    subst heq
    exact ⟨by omega, hlo, fun i hji hin => hhi i hji hin⟩
  | succ fuel ih =>
    intro left right hlr hrn hf hlo hhi
    by_cases hcase : left < right
    · have hmidlt : left + (right - left) / 2 < right := by omega
      have hmidn : left + (right - left) / 2 < n := lt_of_lt_of_le hmidlt hrn
      have hgm := hg _ hmidn
      rcases lt_trichotomy (k (left + (right - left) / 2)) t with hk | hk | hk
      · have hord : g (left + (right - left) / 2) = Ordering.lt := by
          rw [hgm]; exact cmp3_lt_iff.mpr hk
        rw [bsGo_succ, if_pos hcase, hord]
        apply ih (left + (right - left) / 2 + 1) right (by omega) hrn (by omega)
        · intro i hi
          exact lt_of_le_of_lt (hmono i (left + (right - left) / 2) (by omega) hmidn) hk
        · exact hhi
      · have hord : g (left + (right - left) / 2) = Ordering.eq := by
          rw [hgm]; exact cmp3_eq_iff.mpr hk
        rw [bsGo_succ, if_pos hcase, hord]
        exact ⟨hmidn, hk⟩
      · have hord : g (left + (right - left) / 2) = Ordering.gt := by
          rw [hgm]; exact cmp3_gt_iff.mpr hk
        rw [bsGo_succ, if_pos hcase, hord]
        apply ih left (left + (right - left) / 2) (by omega) (by omega) (by omega) hlo
        intro i hmi hin
        exact lt_of_lt_of_le hk (hmono (left + (right - left) / 2) i hmi hin)
    · have heq : left = right := by omega
      subst heq
      rw [bsGo_succ, if_neg hcase]
      exact ⟨by omega, hlo, fun i hji hin => hhi i hji hin⟩

theorem bsGo_ok {g : ℕ → Ordering} :
    ∀ {fuel left right i : ℕ}, bsGo g fuel left right = Except.ok i →
      left ≤ i ∧ i < right ∧ g i = Ordering.eq := by
  intro fuel
  induction fuel with
  | zero => intro left right i h; exact Except.noConfusion h
  | succ fuel ih =>
    intro left right i h
    by_cases hcase : left < right
    · rw [bsGo_succ, if_pos hcase] at h
      rcases hord : g (left + (right - left) / 2) with _ | _ | _ <;> rw [hord] at h
      · rcases ih h with ⟨h1, h2, h3⟩
        exact ⟨by omega, h2, h3⟩
      · rcases Except.ok.inj h with rfl
        exact ⟨by omega, by omega, hord⟩
      · rcases ih h with ⟨h1, h2, h3⟩
        exact ⟨h1, by omega, h3⟩
    · rw [bsGo_succ, if_neg hcase] at h
      exact Except.noConfusion h

theorem binarySearchBy_spec {α : Type} [Inhabited α] {K : Type} [LinearOrder K]
    (key : α → K) (t : K) (l : List α)
    (hs : l.Pairwise (fun a b => key a ≤ key b)) :
    match binarySearchBy (fun a => cmp3 (key a) t) l with
    | Except.ok i => ∃ h : i < l.length, key (l[i]) = t
    | Except.error j => j ≤ l.length ∧
        (∀ i, (h : i < l.length) → i < j → key (l[i]) < t) ∧
        (∀ i, (h : i < l.length) → j ≤ i → t < key (l[i])) := by
  have hmono : ∀ i j, i ≤ j → j < l.length →
      key (l.getD i default) ≤ key (l.getD j default) := by
    intro i j hij hj
    rcases Nat.lt_or_ge i j with h | h
    · have hi : i < l.length := lt_trans h hj
      rw [List.getD_eq_getElem l default hi, List.getD_eq_getElem l default hj]
      exact List.pairwise_iff_getElem.mp hs i j hi hj h
    · have heq : i = j := by omega
      subst heq
      exact le_refl _
  have hspec := bsGo_spec (fun i => key (l.getD i default)) t l.length
    (fun i => cmp3 (key (l.getD i default)) t) (fun i _ => rfl) hmono
    l.length 0 l.length (Nat.zero_le _) (le_refl _) (by omega)
    (fun i hi => absurd hi (Nat.not_lt_zero i)) (fun i hi hin => absurd hin (by omega))
  unfold binarySearchBy
  rcases hres : bsGo (fun i => cmp3 (key (l.getD i default)) t) l.length 0 l.length
    with j | i
  · rw [hres] at hspec
    rcases hspec with ⟨h1, h2, h3⟩
    refine ⟨h1, ?_, ?_⟩
    · intro i hi hij
      have h2' : key (l.getD i default) < t := h2 i hij
      rwa [List.getD_eq_getElem l default hi] at h2'
    · intro i hi hji
      have h3' : key (l.getD i default) > t := h3 i hji hi
      rwa [List.getD_eq_getElem l default hi] at h3'
  · rw [hres] at hspec
    rcases hspec with ⟨h1, h2⟩
    refine ⟨h1, ?_⟩
    have h2' : key (l.getD i default) = t := h2
    rwa [List.getD_eq_getElem l default h1] at h2'

theorem binarySearchBy_ok_key {α : Type} [Inhabited α] {K : Type} [LinearOrder K]
    {key : α → K} {t : K} {l : List α} {i : ℕ}
    (h : binarySearchBy (fun a => cmp3 (key a) t) l = Except.ok i) :
    ∃ hi : i < l.length, key (l[i]) = t := by
  rcases bsGo_ok h with ⟨_, h2, h3⟩
  refine ⟨h2, ?_⟩
  have := cmp3_eq_iff.mp h3
  rwa [List.getD_eq_getElem l default h2] at this

theorem binarySearchBy_found {α : Type} [Inhabited α] {K : Type} [LinearOrder K]
    {key : α → K} {t : K} {l : List α}
    (hs : l.Pairwise (fun a b => key a ≤ key b))
    {i0 : ℕ} (hi0 : i0 < l.length) (ht0 : key (l[i0]) = t) :
    ∃ i, ∃ hi : i < l.length,
      binarySearchBy (fun a => cmp3 (key a) t) l = Except.ok i ∧ key (l[i]) = t := by
  have hspec := binarySearchBy_spec key t l hs
  rcases hres : binarySearchBy (fun a => cmp3 (key a) t) l with j | i
  · rw [hres] at hspec
    rcases hspec with ⟨_, h2, h3⟩
    rcases Nat.lt_or_ge i0 j with h | h
    · exact absurd ht0 (ne_of_lt (h2 i0 hi0 h))
    · exact absurd ht0.symm (ne_of_lt (h3 i0 hi0 h))
  · rw [hres] at hspec
    rcases hspec with ⟨hi, hkey⟩
    exact ⟨i, hi, rfl, hkey⟩

theorem binarySearchBy_found_strict {α : Type} [Inhabited α] {K : Type} [LinearOrder K]
    {key : α → K} {t : K} {l : List α}
    (hs : l.Pairwise (fun a b => key a < key b))
    {i0 : ℕ} (hi0 : i0 < l.length) (ht0 : key (l[i0]) = t) :
    binarySearchBy (fun a => cmp3 (key a) t) l = Except.ok i0 := by
  have hsle : l.Pairwise (fun a b => key a ≤ key b) := hs.imp (fun h => le_of_lt h)
  rcases binarySearchBy_found hsle hi0 ht0 with ⟨i, hi, hok, hkey⟩
  have : i = i0 := by
    rcases Nat.lt_trichotomy i i0 with h | h | h
    · have := List.pairwise_iff_getElem.mp hs i i0 hi hi0 h
      rw [hkey, ht0] at this
      exact absurd this (lt_irrefl t)
    · exact h
    · have := List.pairwise_iff_getElem.mp hs i0 i hi0 hi h
      rw [hkey, ht0] at this
      exact absurd this (lt_irrefl t)
  rw [← this]
  exact hok

theorem binarySearchBy_absent {α : Type} [Inhabited α] {K : Type} [LinearOrder K]
    {key : α → K} {t : K} {l : List α}
    (hs : l.Pairwise (fun a b => key a ≤ key b))
    (ha : ∀ a ∈ l, key a ≠ t) :
    ∃ j, binarySearchBy (fun a => cmp3 (key a) t) l = Except.error j ∧ j ≤ l.length ∧
      (∀ i, (h : i < l.length) → i < j → key (l[i]) < t) ∧
      (∀ i, (h : i < l.length) → j ≤ i → t < key (l[i])) := by
  have hspec := binarySearchBy_spec key t l hs
  rcases hres : binarySearchBy (fun a => cmp3 (key a) t) l with j | i
  · rw [hres] at hspec
    exact ⟨j, rfl, hspec⟩
  · rw [hres] at hspec
    rcases hspec with ⟨hi, hkey⟩
    exact absurd hkey (ha _ (List.getElem_mem hi))

end Spellcoder

namespace Spellcoder

/-! ### List and sorting helpers -/

theorem list_set_self {α : Type} {l : List α} {i : ℕ} {a : α} (hi : i < l.length)
    (ha : l[i] = a) : l.set i a = l := by
  apply List.ext_getElem
  · rw [List.length_set]
  · intro n h1 h2
    rw [List.getElem_set]
    split_ifs with h
    · subst h; exact ha.symm
    · rfl

theorem list_getD_set_self {α : Type} {l : List α} {i : ℕ} (v d : α) (hi : i < l.length) :
    (l.set i v).getD i d = v := by
  rw [List.getD_eq_getElem _ d (by rw [List.length_set]; exact hi), List.getElem_set]
  simp

theorem list_getD_set_ne {α : Type} {l : List α} {i j : ℕ} (v d : α) (hij : i ≠ j) :
    (l.set i v).getD j d = l.getD j d := by
  rcases Nat.lt_or_ge j l.length with h | h
  · rw [List.getD_eq_getElem _ d (by rw [List.length_set]; exact h),
      List.getD_eq_getElem _ d h, List.getElem_set, if_neg hij]
  · rw [List.getD_eq_default _ d (by rw [List.length_set]; exact h),
      List.getD_eq_default _ d h]

theorem sortByY_sorted (l : List Pixel) : (sortByY l).Pairwise pixelLE :=
  List.sorted_insertionSort pixelLE l

theorem sortByY_perm (l : List Pixel) : (sortByY l).Perm l :=
  List.perm_insertionSort pixelLE l

theorem sortByY_of_sorted {l : List Pixel} (h : l.Pairwise pixelLE) : sortByY l = l :=
  List.Sorted.insertionSort_eq h

theorem pairwise_set_key {R : ℕ → ℕ → Prop} {l : List Pixel} {i : ℕ} {p : Pixel}
    (hi : i < l.length) (hk : (l[i]).y = p.y)
    (h : l.Pairwise (fun a b => R a.y b.y)) :
    (l.set i p).Pairwise (fun a b => R a.y b.y) := by
  rw [List.pairwise_iff_getElem] at h ⊢
  intro a b ha hb hab
  rw [List.length_set] at ha hb
  rw [List.getElem_set, List.getElem_set]
  by_cases h1 : i = a
  · by_cases h2 : i = b
    · omega
    · subst h1
      rw [if_pos rfl, if_neg h2, ← hk]
      exact h i b ha hb hab
  · by_cases h2 : i = b
    · subst h2
      rw [if_neg h1, if_pos rfl, ← hk]
      exact h a i ha hb hab
    · rw [if_neg h1, if_neg h2]
      exact h a b ha hb hab

/-! ### Structure of generated chunks -/

theorem genPixel_x (chunk_x chunk_y : ℤ) (noise : ℚ → ℚ → ℕ → ℚ) (seed : ℕ) (x y : ℕ) :
    (genPixel chunk_x chunk_y noise seed x y).x = x := by
  simp only [genPixel]
  split_ifs <;> rfl

theorem genPixel_y (chunk_x chunk_y : ℤ) (noise : ℚ → ℚ → ℕ → ℚ) (seed : ℕ) (x y : ℕ) :
    (genPixel chunk_x chunk_y noise seed x y).y = y := by
  simp only [genPixel]
  split_ifs <;> rfl

theorem add_pixel_coords (c : Chunk) (p : Pixel) :
    (c.add_pixel p).x = c.x ∧ (c.add_pixel p).y = c.y := ⟨rfl, rfl⟩

theorem genCol_pairwise_lt (chunk_x chunk_y : ℤ) (noise : ℚ → ℚ → ℕ → ℚ) (seed : ℕ) (x n : ℕ) :
    (genCol chunk_x chunk_y noise seed x n).Pairwise (fun a b => a.y < b.y) := by
  unfold genCol
  rw [List.pairwise_map]
  apply (List.pairwise_lt_range n).imp
  intro a b hab
  rw [genPixel_y, genPixel_y]
  exact hab

theorem genCol_succ (chunk_x chunk_y : ℤ) (noise : ℚ → ℚ → ℕ → ℚ) (seed : ℕ) (x n : ℕ) :
    genCol chunk_x chunk_y noise seed x (n+1) =
      genCol chunk_x chunk_y noise seed x n ++ [genPixel chunk_x chunk_y noise seed x n] := by
  unfold genCol
  rw [List.range_succ, List.map_append]
  rfl

theorem innerFold_pixels (chunk_x chunk_y : ℤ) (noise : ℚ → ℚ → ℕ → ℚ) (seed : ℕ) (x : ℕ) :
    ∀ (n : ℕ) (c : Chunk), x < c.pixels.length → c.column x = [] →
      ((List.range n).foldl
          (fun c2 y => c2.add_pixel (genPixel chunk_x chunk_y noise seed x y)) c).pixels =
        c.pixels.set x (genCol chunk_x chunk_y noise seed x n) := by
  intro n
  induction n with
  | zero =>
    intro c hx hcol
    unfold genCol
    simp only [List.range_zero, List.foldl_nil, List.map_nil]
    rw [list_set_self hx]
    rw [← List.getD_eq_getElem c.pixels [] hx]
    exact hcol
  | succ n ih =>
    intro c hx hcol
    rw [List.range_succ, List.foldl_append, List.foldl_cons, List.foldl_nil]
    have hpix := ih c hx hcol
    set cn := (List.range n).foldl
      (fun c2 y => c2.add_pixel (genPixel chunk_x chunk_y noise seed x y)) c with hcn
    have hcolx : cn.column x = genCol chunk_x chunk_y noise seed x n := by
      unfold Chunk.column
      rw [hpix]
      exact list_getD_set_self _ _ hx
    show (cn.add_pixel (genPixel chunk_x chunk_y noise seed x n)).pixels = _
    unfold Chunk.add_pixel
    rw [genPixel_x, hcolx, hpix, List.set_set]
    have hsorted : (genCol chunk_x chunk_y noise seed x n ++
        [genPixel chunk_x chunk_y noise seed x n]).Pairwise pixelLE := by
      rw [List.pairwise_append]
      refine ⟨(genCol_pairwise_lt chunk_x chunk_y noise seed x n).imp
        (fun h => Nat.le_of_lt h), List.pairwise_singleton _ _, ?_⟩
      intro a ha b hb
      rcases List.mem_singleton.mp hb with rfl
      unfold genCol at ha
      rcases List.mem_map.mp ha with ⟨i, hi, rfl⟩
      unfold pixelLE
      rw [genPixel_y, genPixel_y]
      exact Nat.le_of_lt (List.mem_range.mp hi)
    rw [show sortByY (genCol chunk_x chunk_y noise seed x n ++
        [genPixel chunk_x chunk_y noise seed x n]) = _ from sortByY_of_sorted hsorted]
    rw [← genCol_succ]

theorem innerFold_coords (chunk_x chunk_y : ℤ) (noise : ℚ → ℚ → ℕ → ℚ) (seed : ℕ) (x : ℕ)
    (n : ℕ) (c : Chunk) :
    (((List.range n).foldl
        (fun c2 y => c2.add_pixel (genPixel chunk_x chunk_y noise seed x y)) c).x = c.x) ∧
    (((List.range n).foldl
        (fun c2 y => c2.add_pixel (genPixel chunk_x chunk_y noise seed x y)) c).y = c.y) := by
  induction n generalizing c with
  | zero => exact ⟨rfl, rfl⟩
  | succ n ih =>
    rw [List.range_succ, List.foldl_append, List.foldl_cons, List.foldl_nil]
    rcases ih c with ⟨h1, h2⟩
    exact ⟨h1 ▸ rfl, h2 ▸ rfl⟩

theorem outerFold_pixels (chunk_x chunk_y : ℤ) (noise : ℚ → ℚ → ℕ → ℚ) (seed : ℕ) :
    ∀ n, n ≤ 16 →
      ((List.range n).foldl
          (fun c x => (List.range 16).foldl
            (fun c2 y => c2.add_pixel (genPixel chunk_x chunk_y noise seed x y)) c)
          (Chunk.new (chunk_x * 16) (chunk_y * 16))).pixels =
        (List.range 16).map
          (fun j => if j < n then genCol chunk_x chunk_y noise seed j 16 else []) := by
  intro n
  induction n with
  | zero =>
    intro _
    simp only [List.range_zero, List.foldl_nil, Chunk.new]
    apply List.ext_getElem
    · simp
    · intro i h1 h2
      simp [List.getElem_replicate]
  | succ n ih =>
    intro hn
    rw [show List.range (n+1) = List.range n ++ [n] from List.range_succ n,
      List.foldl_append, List.foldl_cons, List.foldl_nil]
    have hprev := ih (by omega)
    set cn := (List.range n).foldl
      (fun c x => (List.range 16).foldl
        (fun c2 y => c2.add_pixel (genPixel chunk_x chunk_y noise seed x y)) c)
      (Chunk.new (chunk_x * 16) (chunk_y * 16)) with hcn
    have hlen : cn.pixels.length = 16 := by rw [hprev]; simp
    have hx : n < cn.pixels.length := by omega
    have hcol : cn.column n = [] := by
      unfold Chunk.column
      rw [hprev, List.getD_eq_getElem _ [] (by simp; omega), List.getElem_map,
        List.getElem_range]
      simp
    rw [innerFold_pixels chunk_x chunk_y noise seed n 16 cn hx hcol, hprev]
    apply List.ext_getElem
    · simp
    · intro i h1 h2
      have hi16 : i < 16 := by simpa using h2
      rw [List.getElem_set]
      rcases Nat.decEq n i with h | h
      · rw [if_neg h, List.getElem_map, List.getElem_map, List.getElem_range]
        by_cases hin : i < n
        · rw [if_pos hin, if_pos (by omega)]
        · rw [if_neg hin, if_neg (by omega)]
      · subst h
        rw [if_pos rfl, List.getElem_map, List.getElem_range, if_pos (by omega)]

theorem generate_pixels (chunk_x chunk_y : ℤ) (noise : ℚ → ℚ → ℕ → ℚ) (seed : ℕ) :
    (Chunk.generate chunk_x chunk_y noise seed).pixels =
      (List.range 16).map (fun j => genCol chunk_x chunk_y noise seed j 16) := by
  unfold Chunk.generate
  rw [outerFold_pixels chunk_x chunk_y noise seed 16 (le_refl 16)]
  apply List.ext_getElem
  · simp
  · intro i h1 h2
    have hi16 : i < 16 := by simpa using h2
    rw [List.getElem_map, List.getElem_map, List.getElem_range, if_pos hi16]

theorem generate_length (chunk_x chunk_y : ℤ) (noise : ℚ → ℚ → ℕ → ℚ) (seed : ℕ) :
    (Chunk.generate chunk_x chunk_y noise seed).pixels.length = 16 := by
  rw [generate_pixels]; simp

theorem generate_column {x : ℕ} (chunk_x chunk_y : ℤ) (noise : ℚ → ℚ → ℕ → ℚ) (seed : ℕ)
    (hx : x < 16) :
    (Chunk.generate chunk_x chunk_y noise seed).column x =
      genCol chunk_x chunk_y noise seed x 16 := by
  unfold Chunk.column
  rw [generate_pixels, List.getD_eq_getElem _ [] (by simp; omega), List.getElem_map,
    List.getElem_range]

theorem generate_coords (chunk_x chunk_y : ℤ) (noise : ℚ → ℚ → ℕ → ℚ) (seed : ℕ) :
    (Chunk.generate chunk_x chunk_y noise seed).x = chunk_x * 16 ∧
    (Chunk.generate chunk_x chunk_y noise seed).y = chunk_y * 16 := by
  unfold Chunk.generate
  have houter : ∀ (n : ℕ) (c : Chunk),
      (((List.range n).foldl
          (fun c x => (List.range 16).foldl
            (fun c2 y => c2.add_pixel (genPixel chunk_x chunk_y noise seed x y)) c) c).x = c.x) ∧
      (((List.range n).foldl
          (fun c x => (List.range 16).foldl
            (fun c2 y => c2.add_pixel (genPixel chunk_x chunk_y noise seed x y)) c) c).y = c.y) := by
    intro n
    induction n with
    | zero => intro c; exact ⟨rfl, rfl⟩
    | succ n ih =>
      intro c
      rw [show List.range (n+1) = List.range n ++ [n] from List.range_succ n,
        List.foldl_append, List.foldl_cons, List.foldl_nil]
      rcases ih c with ⟨h1, h2⟩
      rcases innerFold_coords chunk_x chunk_y noise seed n 16 _ with ⟨g1, g2⟩
      exact ⟨g1.trans h1, g2.trans h2⟩
  rcases houter 16 (Chunk.new (chunk_x * 16) (chunk_y * 16)) with ⟨h1, h2⟩
  exact ⟨h1, h2⟩

end Spellcoder

namespace Spellcoder

/-! ### Chunk-level invariants -/

theorem list_getD_set_cases {α : Type} (l : List α) (i j : ℕ) (v d : α) :
    (l.set i v).getD j d = if i = j ∧ j < l.length then v else l.getD j d := by
  by_cases h : i = j ∧ j < l.length
  · rcases h with ⟨rfl, hj⟩
    rw [if_pos ⟨rfl, hj⟩]
    exact list_getD_set_self v d hj
  · rw [if_neg h]
    by_cases hij : i = j
    · subst hij
      have hj : ¬ i < l.length := fun hc => h ⟨rfl, hc⟩
      rw [List.getD_eq_default _ _ (by rw [List.length_set]; omega),
        List.getD_eq_default _ _ (by omega)]
    · exact list_getD_set_ne v d hij

theorem add_pixel_column (c : Chunk) (p : Pixel) (x : ℕ) :
    (c.add_pixel p).column x =
      if p.x = x ∧ x < c.pixels.length then sortByY (c.column p.x ++ [p])
      else c.column x := by
  unfold Chunk.add_pixel Chunk.column
  exact list_getD_set_cases _ _ _ _ _

theorem pairwise_lt_of_le_ne {l : List Pixel} (hle : l.Pairwise pixelLE)
    (hne : l.Pairwise (fun a b => a.y ≠ b.y)) :
    l.Pairwise (fun a b => a.y < b.y) := by
  rw [List.pairwise_iff_getElem] at hle hne ⊢
  intro i j hi hj hij
  exact lt_of_le_of_ne (hle i j hi hj hij) (hne i j hi hj hij)

theorem sortByY_pairwise_ne {l : List Pixel} (h : l.Pairwise (fun a b => a.y ≠ b.y)) :
    (sortByY l).Pairwise (fun a b => a.y ≠ b.y) :=
  ((sortByY_perm l).pairwise_iff (fun hab => Ne.symm hab)).mpr h

theorem sortByY_strict_of_fresh {col : List Pixel} {p : Pixel}
    (hs : col.Pairwise (fun a b => a.y < b.y)) (hfresh : ∀ q ∈ col, q.y ≠ p.y) :
    (sortByY (col ++ [p])).Pairwise (fun a b => a.y < b.y) := by
  have hne : (col ++ [p]).Pairwise (fun a b => a.y ≠ b.y) := by
    rw [List.pairwise_append]
    refine ⟨hs.imp (fun h => ne_of_lt h), List.pairwise_singleton _ _, ?_⟩
    intro a ha b hb
    rcases List.mem_singleton.mp hb with rfl
    exact hfresh a ha
  exact pairwise_lt_of_le_ne (sortByY_sorted _) (sortByY_pairwise_ne hne)

theorem add_pixel_sortedCols {c : Chunk} (p : Pixel) (h : SortedCols c) :
    SortedCols (c.add_pixel p) := by
  intro x
  rw [add_pixel_column]
  split_ifs with hx
  · exact sortByY_sorted _
  · exact h x

theorem add_pixel_strictCols {c : Chunk} {p : Pixel} (h : StrictCols c)
    (hfresh : ∀ q ∈ c.column p.x, q.y ≠ p.y) :
    StrictCols (c.add_pixel p) := by
  intro x
  rw [add_pixel_column]
  split_ifs with hx
  · rcases hx with ⟨rfl, _⟩
    exact sortByY_strict_of_fresh (h p.x) hfresh
  · exact h x

theorem set_pixel_column (c : Chunk) (p : Pixel) (x : ℕ) :
    (c.set_pixel p).column x =
      match binarySearchBy (fun a => cmp3 a.y p.y) (c.column p.x) with
      | Except.ok i =>
          if p.x = x ∧ x < c.pixels.length then (c.column p.x).set i p else c.column x
      | Except.error _ => (c.add_pixel p).column x := by
  unfold Chunk.set_pixel
  rcases hres : binarySearchBy (fun a => cmp3 a.y p.y) (c.column p.x) with j | i
  · rw [hres]
  · rw [hres]
    unfold Chunk.column
    exact list_getD_set_cases _ _ _ _ _

theorem set_pixel_sortedCols {c : Chunk} (p : Pixel) (h : SortedCols c) :
    SortedCols (c.set_pixel p) := by
  intro x
  rw [set_pixel_column]
  rcases hres : binarySearchBy (fun a => cmp3 a.y p.y) (c.column p.x) with j | i
  · rw [hres]
    exact add_pixel_sortedCols p h x
  · rw [hres]
    rcases binarySearchBy_ok_key hres with ⟨hi, hkey⟩
    split_ifs with hx
    · exact pairwise_set_key hi hkey (h p.x)
    · exact h x

theorem set_pixel_strictCols {c : Chunk} (p : Pixel) (h : StrictCols c) :
    StrictCols (c.set_pixel p) := by
  intro x
  rw [set_pixel_column]
  rcases hres : binarySearchBy (fun a => cmp3 a.y p.y) (c.column p.x) with j | i
  · rw [hres]
    have hspec := binarySearchBy_spec Pixel.y p.y (c.column p.x)
      ((h p.x).imp (fun hlt => le_of_lt hlt))
    rw [hres] at hspec
    rcases hspec with ⟨_, h2, h3⟩
    apply add_pixel_strictCols h
    intro q hq
    rcases List.mem_iff_getElem.mp hq with ⟨i, hilen, rfl⟩
    rcases Nat.lt_or_ge i j with hij | hij
    · exact ne_of_lt (h2 i hilen hij)
    · exact (ne_of_lt (h3 i hilen hij)).symm
  · rw [hres]
    rcases binarySearchBy_ok_key hres with ⟨hi, hkey⟩
    split_ifs with hx
    · exact pairwise_set_key hi hkey (h p.x)
    · exact h x

theorem set_pixel_length (c : Chunk) (p : Pixel) :
    (c.set_pixel p).pixels.length = c.pixels.length := by
  unfold Chunk.set_pixel
  rcases hres : binarySearchBy (fun a => cmp3 a.y p.y) (c.column p.x) with j | i
  · rw [hres]
    unfold Chunk.add_pixel
    exact List.length_set _ _ _
  · rw [hres]
    exact List.length_set _ _ _

theorem set_pixel_coords (c : Chunk) (p : Pixel) :
    (c.set_pixel p).x = c.x ∧ (c.set_pixel p).y = c.y := by
  unfold Chunk.set_pixel
  rcases hres : binarySearchBy (fun a => cmp3 a.y p.y) (c.column p.x) with j | i
  · rw [hres]
    exact ⟨rfl, rfl⟩
  · rw [hres]
    exact ⟨rfl, rfl⟩

theorem set_pixel_covers {c : Chunk} (p : Pixel) {x y : ℕ}
    (hcov : ∃ q ∈ c.column x, q.y = y) :
    ∃ q ∈ (c.set_pixel p).column x, q.y = y := by
  rw [set_pixel_column]
  rcases hres : binarySearchBy (fun a => cmp3 a.y p.y) (c.column p.x) with j | i
  · rw [hres, add_pixel_column]
    split_ifs with hx
    · rcases hx with ⟨hpx, _⟩
      rcases hcov with ⟨q, hq, hqy⟩
      have hqmem : q ∈ sortByY (c.column p.x ++ [p]) := by
        rw [(sortByY_perm _).mem_iff]
        exact List.mem_append_left _ (hpx ▸ hq)
      exact ⟨q, hqmem, hqy⟩
    · exact hcov
  · rw [hres]
    rcases binarySearchBy_ok_key hres with ⟨hi, hkey⟩
    split_ifs with hx
    · rcases hx with ⟨hpx, _⟩
      rcases hcov with ⟨q, hq, hqy⟩
      rcases List.mem_iff_getElem.mp (hpx ▸ hq) with ⟨k, hk, hqk⟩
      by_cases hki : k = i
      · refine ⟨p, ?_, ?_⟩
        · rw [List.mem_iff_getElem]
          exact ⟨i, by rw [List.length_set]; exact hi, by rw [List.getElem_set, if_pos rfl]⟩
        · subst hki
          rw [← hkey, hqk]
          exact hqy
      · refine ⟨q, ?_, hqy⟩
        rw [List.mem_iff_getElem]
        refine ⟨k, by rw [List.length_set]; exact hk, ?_⟩
        rw [List.getElem_set, if_neg (fun hik => hki hik.symm)]
        exact hqk
    · exact hcov

theorem generate_sortedCols (chunk_x chunk_y : ℤ) (noise : ℚ → ℚ → ℕ → ℚ) (seed : ℕ) :
    SortedCols (Chunk.generate chunk_x chunk_y noise seed) := by
  intro x
  by_cases hx : x < 16
  · rw [generate_column chunk_x chunk_y noise seed hx]
    exact (genCol_pairwise_lt chunk_x chunk_y noise seed x 16).imp (fun h => le_of_lt h)
  · unfold Chunk.column
    rw [List.getD_eq_default _ _ (by rw [generate_length]; omega)]
    exact List.Pairwise.nil

theorem generate_strictCols (chunk_x chunk_y : ℤ) (noise : ℚ → ℚ → ℕ → ℚ) (seed : ℕ) :
    StrictCols (Chunk.generate chunk_x chunk_y noise seed) := by
  intro x
  by_cases hx : x < 16
  · rw [generate_column chunk_x chunk_y noise seed hx]
    exact genCol_pairwise_lt chunk_x chunk_y noise seed x 16
  · unfold Chunk.column
    rw [List.getD_eq_default _ _ (by rw [generate_length]; omega)]
    exact List.Pairwise.nil

theorem generate_good (chunk_x chunk_y : ℤ) (noise : ℚ → ℚ → ℕ → ℚ) (seed : ℕ) :
    GoodChunk (Chunk.generate chunk_x chunk_y noise seed) := by
  refine ⟨generate_length chunk_x chunk_y noise seed, ?_⟩
  intro x hx
  refine ⟨generate_sortedCols chunk_x chunk_y noise seed x, ?_⟩
  intro y hy
  rw [generate_column chunk_x chunk_y noise seed hx]
  refine ⟨genPixel chunk_x chunk_y noise seed x y, ?_, genPixel_y chunk_x chunk_y noise seed x y⟩
  unfold genCol
  exact List.mem_map.mpr ⟨y, List.mem_range.mpr hy, rfl⟩

theorem set_pixel_good {c : Chunk} (p : Pixel) (h : GoodChunk c) : GoodChunk (c.set_pixel p) := by
  rcases h with ⟨hlen, hcols⟩
  refine ⟨by rw [set_pixel_length]; exact hlen, ?_⟩
  intro x hx
  rcases hcols x hx with ⟨hsort, hcov⟩
  refine ⟨set_pixel_sortedCols p (fun z => ?_) x, ?_⟩
  · by_cases hz : z < 16
    · exact (hcols z hz).1
    · unfold Chunk.column
      rw [List.getD_eq_default _ _ (by omega)]
      exact List.Pairwise.nil
  · intro y hy
    exact set_pixel_covers p (hcov y hy)

end Spellcoder

namespace Spellcoder

/-! ### Lookup in generated chunks -/

theorem countP_beq_range (y n : ℕ) :
    (List.range n).countP (fun i => i == y) = if y < n then 1 else 0 := by
  induction n with
  | zero => simp
  | succ n ih =>
    rw [List.range_succ, List.countP_append, ih]
    by_cases h : n = y
    · subst h
      rw [if_neg (lt_irrefl n), if_pos (by omega)]
      simp
    · have : (List.countP (fun i => i == y) [n]) = 0 := by
        simp [List.countP_cons]
        omega
      rw [this]
      by_cases hy : y < n
      · rw [if_pos hy, if_pos (by omega)]
      · rw [if_neg hy, if_neg (by omega)]

theorem insertIdx_length_append {α : Type} (l : List α) (a : α) :
    List.insertIdx l.length a l = l ++ [a] := by
  induction l with
  | nil => rfl
  | cons b t ih =>
    show b :: List.insertIdx t.length a t = b :: (t ++ [a])
    rw [ih]

theorem genCol_getElem_y (chunk_x chunk_y : ℤ) (noise : ℚ → ℚ → ℕ → ℚ) (seed : ℕ)
    (x : ℕ) {i : ℕ} (hi : i < (genCol chunk_x chunk_y noise seed x 16).length) :
    ((genCol chunk_x chunk_y noise seed x 16)[i]).y = i := by
  unfold genCol at hi ⊢
  rw [List.getElem_map]
  rw [genPixel_y]
  exact List.getElem_range _ _

theorem genCol_length (chunk_x chunk_y : ℤ) (noise : ℚ → ℚ → ℕ → ℚ) (seed : ℕ) (x n : ℕ) :
    (genCol chunk_x chunk_y noise seed x n).length = n := by
  unfold genCol
  simp

theorem generate_get_pixel_found (chunk_x chunk_y : ℤ) (noise : ℚ → ℚ → ℕ → ℚ) (seed : ℕ)
    {x y : ℕ} (hx : x < 16) (hy : y < 16) :
    (Chunk.generate chunk_x chunk_y noise seed).get_pixel x y =
      Except.ok (genPixel chunk_x chunk_y noise seed x y) := by
  unfold Chunk.get_pixel
  have hcol := generate_column chunk_x chunk_y noise seed hx
  have hmod : y % 256 = y := Nat.mod_eq_of_lt (by omega)
  have hidx : y < (genCol chunk_x chunk_y noise seed x 16).length := by
    rw [genCol_length]; exact hy
  have hkey : ((genCol chunk_x chunk_y noise seed x 16)[y]).y = y % 256 := by
    rw [hmod]; exact genCol_getElem_y chunk_x chunk_y noise seed x hidx
  have hsearch : binarySearchBy (fun a => cmp3 a.y (y % 256))
      (genCol chunk_x chunk_y noise seed x 16) = Except.ok y :=
    binarySearchBy_found_strict (genCol_pairwise_lt chunk_x chunk_y noise seed x 16) hidx hkey
  rw [hcol, hsearch]
  show Except.ok ((genCol chunk_x chunk_y noise seed x 16).getD y default) =
    Except.ok (genPixel chunk_x chunk_y noise seed x y)
  rw [List.getD_eq_getElem _ _ hidx]
  unfold genCol
  rw [List.getElem_map]
  rw [List.getElem_range]

theorem generate_get_pixel_missing (chunk_x chunk_y : ℤ) (noise : ℚ → ℚ → ℕ → ℚ) (seed : ℕ)
    {x y : ℕ} (hx : x < 16) (hy16 : 16 ≤ y) (hy256 : y < 256) :
    (Chunk.generate chunk_x chunk_y noise seed).get_pixel x y = Except.error 16 := by
  unfold Chunk.get_pixel
  have hcol := generate_column chunk_x chunk_y noise seed hx
  have hmod : y % 256 = y := Nat.mod_eq_of_lt hy256
  have hnot : ∀ a ∈ genCol chunk_x chunk_y noise seed x 16, a.y ≠ y % 256 := by
    intro a ha
    rcases List.mem_iff_getElem.mp ha with ⟨i, hi, rfl⟩
    rw [genCol_getElem_y chunk_x chunk_y noise seed x hi, hmod]
    have := genCol_length chunk_x chunk_y noise seed x 16
    omega
  have habs := binarySearchBy_absent
    ((genCol_pairwise_lt chunk_x chunk_y noise seed x 16).imp (fun h => le_of_lt h)) hnot
  rcases habs with ⟨j, hsearch, hjle, _, h3⟩
  have hj : j = 16 := by
    rw [genCol_length] at hjle
    by_contra hne
    have hjlt : j < (genCol chunk_x chunk_y noise seed x 16).length := by
      rw [genCol_length]; omega
    have hlt := h3 j hjlt (le_refl j)
    rw [genCol_getElem_y chunk_x chunk_y noise seed x hjlt, hmod] at hlt
    omega
  rw [hcol, hsearch]
  show Except.error j = Except.error 16
  rw [hj]

/-- C3: in a generated chunk, `get_cell(x, y)` with local coordinates in
bounds returns exactly the cell whose coordinates are `(x, y)`; for a
(`u8`-representable) column coordinate never inserted into column `x`,
it returns a not-found result carrying the insertion index that keeps
the column sorted (the end of the 16-cell column, index 16). -/
theorem c3_lookup_correct (chunk_x chunk_y : ℤ) (noise : ℚ → ℚ → ℕ → ℚ) (seed : ℕ)
    (x y : ℕ) (hx : x < 16) :
    (y < 16 →
      (Chunk.generate chunk_x chunk_y noise seed).get_pixel x y =
        Except.ok (genPixel chunk_x chunk_y noise seed x y) ∧
      (genPixel chunk_x chunk_y noise seed x y).x = x ∧
      (genPixel chunk_x chunk_y noise seed x y).y = y) ∧
    (16 ≤ y → y < 256 →
      (Chunk.generate chunk_x chunk_y noise seed).get_pixel x y = Except.error 16 ∧
      ∀ p : Pixel, p.y = y →
        (List.insertIdx 16 p
            ((Chunk.generate chunk_x chunk_y noise seed).column x)).Pairwise
          (fun a b => a.y < b.y)) := by
  constructor
  · intro hy
    exact ⟨generate_get_pixel_found chunk_x chunk_y noise seed hx hy,
      genPixel_x chunk_x chunk_y noise seed x y, genPixel_y chunk_x chunk_y noise seed x y⟩
  · intro hy16 hy256
    refine ⟨generate_get_pixel_missing chunk_x chunk_y noise seed hx hy16 hy256, ?_⟩
    intro p hp
    have hcol := generate_column chunk_x chunk_y noise seed hx
    rw [hcol]
    have hins : List.insertIdx 16 p (genCol chunk_x chunk_y noise seed x 16) =
        genCol chunk_x chunk_y noise seed x 16 ++ [p] := by
      have hia := insertIdx_length_append (genCol chunk_x chunk_y noise seed x 16) p
      rwa [genCol_length] at hia
    rw [hins]
    rw [List.pairwise_append]
    refine ⟨genCol_pairwise_lt chunk_x chunk_y noise seed x 16,
      List.pairwise_singleton _ _, ?_⟩
    intro a ha b hb
    rcases List.mem_singleton.mp hb with rfl
    rcases List.mem_iff_getElem.mp ha with ⟨i, hi, rfl⟩
    rw [genCol_getElem_y chunk_x chunk_y noise seed x hi, hp]
    have := genCol_length chunk_x chunk_y noise seed x 16
    omega

/-- Witness for C3 at chunk (0,0), constant-zero noise, column 3
(hypothesis `3 < 16` discharged concretely). -/
theorem c3_lookup_correct_witness :
    (3:ℕ) < 16 ∧
    (((5:ℕ) < 16 →
      (Chunk.generate 0 0 (fun _ _ _ => 0) 0).get_pixel 3 5 =
        Except.ok (genPixel 0 0 (fun _ _ _ => 0) 0 3 5) ∧
      (genPixel 0 0 (fun _ _ _ => 0) 0 3 5).x = 3 ∧
      (genPixel 0 0 (fun _ _ _ => 0) 0 3 5).y = 5) ∧
    (16 ≤ (5:ℕ) → (5:ℕ) < 256 →
      (Chunk.generate 0 0 (fun _ _ _ => 0) 0).get_pixel 3 5 = Except.error 16 ∧
      ∀ p : Pixel, p.y = 5 →
        (List.insertIdx 16 p
            ((Chunk.generate 0 0 (fun _ _ _ => 0) 0).column 3)).Pairwise
          (fun a b => a.y < b.y))) :=
  ⟨by decide, c3_lookup_correct 0 0 (fun _ _ _ => 0) 0 3 5 (by decide)⟩

/-- C4: a generated chunk holds exactly one cell per (column, row) pair in
`[0,16) × [0,16)`: 16 columns of 16 cells, strictly sorted by the row
coordinate, with each row coordinate occurring exactly once. -/
theorem c4_generate_grid (chunk_x chunk_y : ℤ) (noise : ℚ → ℚ → ℕ → ℚ) (seed : ℕ) :
    (Chunk.generate chunk_x chunk_y noise seed).pixels.length = 16 ∧
    ∀ x, x < 16 →
      ((Chunk.generate chunk_x chunk_y noise seed).column x).length = 16 ∧
      ((Chunk.generate chunk_x chunk_y noise seed).column x).Pairwise
        (fun a b => a.y < b.y) ∧
      ∀ y, y < 16 →
        ((Chunk.generate chunk_x chunk_y noise seed).column x).countP
          (fun p => p.y == y) = 1 := by
  refine ⟨generate_length chunk_x chunk_y noise seed, ?_⟩
  intro x hx
  rw [generate_column chunk_x chunk_y noise seed hx]
  refine ⟨genCol_length chunk_x chunk_y noise seed x 16,
    genCol_pairwise_lt chunk_x chunk_y noise seed x 16, ?_⟩
  intro y hy
  unfold genCol
  rw [List.countP_map]
  have hcong : ∀ a ∈ List.range 16,
      (((fun p => p.y == y) ∘ genPixel chunk_x chunk_y noise seed x) a = true ↔
        (fun i => i == y) a = true) := by
    intro a _
    show ((genPixel chunk_x chunk_y noise seed x a).y == y) = true ↔ (a == y) = true
    rw [genPixel_y]
  rw [List.countP_congr hcong, countP_beq_range, if_pos hy]

/-- Witness for C4 at chunk (1,-1), constant-zero noise, column 0, row 15. -/
theorem c4_generate_grid_witness :
    (Chunk.generate 1 (-1) (fun _ _ _ => 0) 7).pixels.length = 16 ∧
    ((0:ℕ) < 16 ∧
      ((Chunk.generate 1 (-1) (fun _ _ _ => 0) 7).column 0).length = 16 ∧
      ((Chunk.generate 1 (-1) (fun _ _ _ => 0) 7).column 0).Pairwise
        (fun a b => a.y < b.y) ∧
      ((15:ℕ) < 16 ∧
        ((Chunk.generate 1 (-1) (fun _ _ _ => 0) 7).column 0).countP
          (fun p => p.y == 15) = 1)) :=
  ⟨(c4_generate_grid 1 (-1) (fun _ _ _ => 0) 7).1,
    by decide,
    ((c4_generate_grid 1 (-1) (fun _ _ _ => 0) 7).2 0 (by decide)).1,
    ((c4_generate_grid 1 (-1) (fun _ _ _ => 0) 7).2 0 (by decide)).2.1,
    by decide,
    ((c4_generate_grid 1 (-1) (fun _ _ _ => 0) 7).2 0 (by decide)).2.2 15 (by decide)⟩

end Spellcoder

namespace Spellcoder

/-! ### Column-ordering invariant under mutation (C6) -/

/-- C6 (amended): after any sequence of `add_cell`/`set_cell` calls every
column stays (weakly) sorted by the cross-axis coordinate; strict
sortedness is preserved provided each `add_cell` call's coordinate is
absent from its column at call time (`set_cell` alone never violates it).
The unamended claim fails: see the counterexample. -/
theorem c6_column_ordering :
    (∀ (c : Chunk) (ops : List ChunkOp),
      SortedCols c → SortedCols (runChunkOps c ops)) ∧
    (∀ (c : Chunk) (ops : List ChunkOp),
      StrictCols c → SafeOps c ops → StrictCols (runChunkOps c ops)) := by
  constructor
  · intro c ops
    induction ops generalizing c with
    | nil => intro h; exact h
    | cons op ops ih =>
      intro h
      show SortedCols (runChunkOps (ChunkOp.apply c op) ops)
      apply ih
      rcases op with p | p
      · exact add_pixel_sortedCols p h
      · exact set_pixel_sortedCols p h
  · intro c ops
    induction ops generalizing c with
    | nil => intro h _; exact h
    | cons op ops ih =>
      intro h hsafe
      rcases hsafe with ⟨hop, hrest⟩
      show StrictCols (runChunkOps (ChunkOp.apply c op) ops)
      apply ih _ _ hrest
      rcases op with p | p
      · exact add_pixel_strictCols h hop
      · exact set_pixel_strictCols p h

/-- Counterexample to C6 as stated: two `add_cell` calls with the same
coordinate leave column 0 with two cells of equal `y`, so the column is
not strictly sorted. -/
theorem c6_counterexample :
    ¬ StrictCols (runChunkOps (Chunk.new 0 0)
      [ChunkOp.addCell ⟨0, 5, PixelMaterial.BLOCK, ⟨0, 0, 0, 255⟩⟩,
       ChunkOp.addCell ⟨0, 5, PixelMaterial.BLOCK, ⟨0, 0, 0, 255⟩⟩]) := by
  intro h
  have h0 := h 0
  have hcol : (runChunkOps (Chunk.new 0 0)
      [ChunkOp.addCell ⟨0, 5, PixelMaterial.BLOCK, ⟨0, 0, 0, 255⟩⟩,
       ChunkOp.addCell ⟨0, 5, PixelMaterial.BLOCK, ⟨0, 0, 0, 255⟩⟩]).column 0 =
      [⟨0, 5, PixelMaterial.BLOCK, ⟨0, 0, 0, 255⟩⟩,
       ⟨0, 5, PixelMaterial.BLOCK, ⟨0, 0, 0, 255⟩⟩] := rfl
  rw [hcol] at h0
  have hlt := (List.pairwise_cons.mp h0).1 _ (List.mem_singleton.mpr rfl)
  exact absurd hlt (by decide)

/-- Witness for the amended C6: a strict chunk stays strict under a safe
`addCell` followed by a `setCell`. -/
theorem c6_column_ordering_witness :
    SortedCols (Chunk.new 0 0) ∧
    SortedCols (runChunkOps (Chunk.new 0 0)
      [ChunkOp.addCell ⟨2, 7, PixelMaterial.BLOCK, ⟨1, 2, 3, 255⟩⟩]) ∧
    StrictCols (Chunk.new 0 0) ∧
    SafeOps (Chunk.new 0 0)
      [ChunkOp.addCell ⟨2, 7, PixelMaterial.BLOCK, ⟨1, 2, 3, 255⟩⟩,
       ChunkOp.setCell ⟨2, 7, PixelMaterial.AIR, ⟨0, 0, 0, 0⟩⟩] ∧
    StrictCols (runChunkOps (Chunk.new 0 0)
      [ChunkOp.addCell ⟨2, 7, PixelMaterial.BLOCK, ⟨1, 2, 3, 255⟩⟩,
       ChunkOp.setCell ⟨2, 7, PixelMaterial.AIR, ⟨0, 0, 0, 0⟩⟩]) := by
  have hsorted : SortedCols (Chunk.new 0 0) := by
    intro x
    unfold Chunk.new Chunk.column
    rcases Nat.lt_or_ge x 16 with hx | hx
    · rw [List.getD_eq_getElem _ _ (by simpa using hx), List.getElem_replicate]
      exact List.Pairwise.nil
    · rw [List.getD_eq_default _ _ (by simpa using hx)]
      exact List.Pairwise.nil
  have hstrict : StrictCols (Chunk.new 0 0) := by
    intro x
    unfold Chunk.new Chunk.column
    rcases Nat.lt_or_ge x 16 with hx | hx
    · rw [List.getD_eq_getElem _ _ (by simpa using hx), List.getElem_replicate]
      exact List.Pairwise.nil
    · rw [List.getD_eq_default _ _ (by simpa using hx)]
      exact List.Pairwise.nil
  have hsafe : SafeOps (Chunk.new 0 0)
      [ChunkOp.addCell ⟨2, 7, PixelMaterial.BLOCK, ⟨1, 2, 3, 255⟩⟩,
       ChunkOp.setCell ⟨2, 7, PixelMaterial.AIR, ⟨0, 0, 0, 0⟩⟩] := by
    refine ⟨?_, trivial, trivial⟩
    intro q hq
    have : q ∈ ([] : List Pixel) := hq
    exact absurd this (List.not_mem_nil q)
  exact ⟨hsorted,
    (c6_column_ordering.1 (Chunk.new 0 0) _ hsorted),
    hstrict,
    hsafe,
    (c6_column_ordering.2 (Chunk.new 0 0) _ hstrict hsafe)⟩

/-! ### Threshold classification (C8) -/

/-- C8: the cell a generated chunk stores at in-bounds local `(x, y)` is
classified from the primary noise sample by the fixed threshold bands of
`Chunk::generate`: above 80/256 a gray `BLOCK`, in (64/256, 80/256] a
green `BLOCK`, below 64/256 an `AIR` cell whose alpha derives from the
secondary higher-frequency sample.  Determinism is inherent: the result
is a pure function of the chunk coordinate, the noise field and the
seed. -/
theorem c8_threshold_bands (chunk_x chunk_y : ℤ) (noise : ℚ → ℚ → ℕ → ℚ) (seed : ℕ)
    (x y : ℕ) (hx : x < 16) (hy : y < 16) :
    ∃ p : Pixel,
      (Chunk.generate chunk_x chunk_y noise seed).get_pixel x y = Except.ok p ∧
      (noise ((((x : ℤ) + chunk_x * 16 : ℤ) : ℚ) / 320)
          ((((y : ℤ) + chunk_y * 16 : ℤ) : ℚ) / 128) seed > 80/256 →
        p.material = PixelMaterial.BLOCK ∧
        p.color = ⟨f64AsU8 (noise ((((x : ℤ) + chunk_x * 16 : ℤ) : ℚ) / 32)
            ((((y : ℤ) + chunk_y * 16 : ℤ) : ℚ) / 32) seed * 16 + 128),
          f64AsU8 (noise ((((x : ℤ) + chunk_x * 16 : ℤ) : ℚ) / 32)
            ((((y : ℤ) + chunk_y * 16 : ℤ) : ℚ) / 32) seed * 16 + 128),
          f64AsU8 (noise ((((x : ℤ) + chunk_x * 16 : ℤ) : ℚ) / 32)
            ((((y : ℤ) + chunk_y * 16 : ℤ) : ℚ) / 32) seed * 16 + 128), 255⟩) ∧
      (64/256 < noise ((((x : ℤ) + chunk_x * 16 : ℤ) : ℚ) / 320)
          ((((y : ℤ) + chunk_y * 16 : ℤ) : ℚ) / 128) seed →
        noise ((((x : ℤ) + chunk_x * 16 : ℤ) : ℚ) / 320)
          ((((y : ℤ) + chunk_y * 16 : ℤ) : ℚ) / 128) seed ≤ 80/256 →
        p.material = PixelMaterial.BLOCK ∧
        p.color = ⟨0, f64AsU8 (noise ((((x : ℤ) + chunk_x * 16 : ℤ) : ℚ) / 32)
            ((((y : ℤ) + chunk_y * 16 : ℤ) : ℚ) / 32) seed * 32 + 128), 0, 255⟩) ∧
      (noise ((((x : ℤ) + chunk_x * 16 : ℤ) : ℚ) / 320)
          ((((y : ℤ) + chunk_y * 16 : ℤ) : ℚ) / 128) seed < 64/256 →
        p.material = PixelMaterial.AIR ∧
        p.color = ⟨255, 255, 255,
          f64AsU8 (fclamp (noise ((((x : ℤ) + chunk_x * 16 : ℤ) : ℚ) / 96)
              ((((y : ℤ) + chunk_y * 16 : ℤ) : ℚ) / 32) seed * 200 *
            cubicOut (cubicOut (64/256 - noise ((((x : ℤ) + chunk_x * 16 : ℤ) : ℚ) / 320)
              ((((y : ℤ) + chunk_y * 16 : ℤ) : ℚ) / 128) seed))) 0 255)⟩) := by
  refine ⟨genPixel chunk_x chunk_y noise seed x y,
    generate_get_pixel_found chunk_x chunk_y noise seed hx hy, ?_, ?_, ?_⟩
  · intro h
    simp only [genPixel]
    rw [if_pos h]
    exact ⟨rfl, rfl⟩
  · intro h1 h2
    simp only [genPixel]
    rw [if_neg (not_lt.mpr h2), if_pos h1]
    exact ⟨rfl, rfl⟩
  · intro h
    have h80 : ¬ (noise ((((x : ℤ) + chunk_x * 16 : ℤ) : ℚ) / 320)
        ((((y : ℤ) + chunk_y * 16 : ℤ) : ℚ) / 128) seed > 80/256) := by
      apply not_lt.mpr
      apply le_of_lt
      apply lt_trans h
      norm_num
    have h64 : ¬ (noise ((((x : ℤ) + chunk_x * 16 : ℤ) : ℚ) / 320)
        ((((y : ℤ) + chunk_y * 16 : ℤ) : ℚ) / 128) seed > 64/256) :=
      not_lt.mpr (le_of_lt h)
    simp only [genPixel]
    rw [if_neg h80, if_neg h64, if_pos h]
    exact ⟨rfl, rfl⟩

/-- Witness for C8 at chunk (0,0), constant-zero noise (which falls in the
low band), local cell (0,0). -/
theorem c8_threshold_bands_witness :
    (0:ℕ) < 16 ∧
    ∃ p : Pixel,
      (Chunk.generate 0 0 (fun _ _ _ => 0) 42).get_pixel 0 0 = Except.ok p ∧
      ((fun _ _ _ => (0:ℚ)) ((((0 : ℤ) + 0 * 16 : ℤ) : ℚ) / 320)
          ((((0 : ℤ) + 0 * 16 : ℤ) : ℚ) / 128) 42 > 80/256 →
        p.material = PixelMaterial.BLOCK ∧
        p.color = ⟨f64AsU8 ((fun _ _ _ => (0:ℚ)) ((((0 : ℤ) + 0 * 16 : ℤ) : ℚ) / 32)
            ((((0 : ℤ) + 0 * 16 : ℤ) : ℚ) / 32) 42 * 16 + 128),
          f64AsU8 ((fun _ _ _ => (0:ℚ)) ((((0 : ℤ) + 0 * 16 : ℤ) : ℚ) / 32)
            ((((0 : ℤ) + 0 * 16 : ℤ) : ℚ) / 32) 42 * 16 + 128),
          f64AsU8 ((fun _ _ _ => (0:ℚ)) ((((0 : ℤ) + 0 * 16 : ℤ) : ℚ) / 32)
            ((((0 : ℤ) + 0 * 16 : ℤ) : ℚ) / 32) 42 * 16 + 128), 255⟩) ∧
      (64/256 < (fun _ _ _ => (0:ℚ)) ((((0 : ℤ) + 0 * 16 : ℤ) : ℚ) / 320)
          ((((0 : ℤ) + 0 * 16 : ℤ) : ℚ) / 128) 42 →
        (fun _ _ _ => (0:ℚ)) ((((0 : ℤ) + 0 * 16 : ℤ) : ℚ) / 320)
          ((((0 : ℤ) + 0 * 16 : ℤ) : ℚ) / 128) 42 ≤ 80/256 →
        p.material = PixelMaterial.BLOCK ∧
        p.color = ⟨0, f64AsU8 ((fun _ _ _ => (0:ℚ)) ((((0 : ℤ) + 0 * 16 : ℤ) : ℚ) / 32)
            ((((0 : ℤ) + 0 * 16 : ℤ) : ℚ) / 32) 42 * 32 + 128), 0, 255⟩) ∧
      ((fun _ _ _ => (0:ℚ)) ((((0 : ℤ) + 0 * 16 : ℤ) : ℚ) / 320)
          ((((0 : ℤ) + 0 * 16 : ℤ) : ℚ) / 128) 42 < 64/256 →
        p.material = PixelMaterial.AIR ∧
        p.color = ⟨255, 255, 255,
          f64AsU8 (fclamp ((fun _ _ _ => (0:ℚ)) ((((0 : ℤ) + 0 * 16 : ℤ) : ℚ) / 96)
              ((((0 : ℤ) + 0 * 16 : ℤ) : ℚ) / 32) 42 * 200 *
            cubicOut (cubicOut (64/256 - (fun _ _ _ => (0:ℚ)) ((((0 : ℤ) + 0 * 16 : ℤ) : ℚ) / 320)
              ((((0 : ℤ) + 0 * 16 : ℤ) : ℚ) / 128) 42))) 0 255)⟩) :=
  ⟨by decide, c8_threshold_bands 0 0 (fun _ _ _ => 0) 42 0 0 (by decide) (by decide)⟩

end Spellcoder

namespace Spellcoder

/-! ### World-level machinery -/

theorem binarySearchBy_nil {α : Type} [Inhabited α] (g : α → Ordering) :
    binarySearchBy g [] = Except.error 0 := rfl

theorem getD_append_singleton_length {α : Type} (l : List α) (a d : α) :
    (l ++ [a]).getD l.length d = a := by
  rw [List.getD_eq_getElem _ d (by simp)]
  rw [List.getElem_append_right (le_refl l.length)]
  simp

theorem set_last_append {α : Type} (l : List α) (a b : α) :
    (l ++ [a]).set l.length b = l ++ [b] := by
  apply List.ext_getElem
  · simp
  · intro n h1 h2
    rw [List.getElem_set]
    by_cases h : l.length = n
    · subst h
      rw [if_pos rfl, List.getElem_append_right (le_refl l.length)]
      simp
    · rw [if_neg h]
      have hn : n < l.length := by
        simp only [List.length_append, List.length_singleton] at h2
        omega
      rw [List.getElem_append_left hn, List.getElem_append_left hn]

/-- Case-normal form of `World::get_chunk`'s index computation. -/
theorem findChunkIdx_eq (w : World) (x y : ℤ) :
    w.findChunkIdx x y =
      match binarySearchBy (fun r => cmp3 (rowKey r) (y * 16)) w.chunks with
      | Except.ok r =>
        (match binarySearchBy (fun c => cmp3 c.x (x * 16)) (w.chunks.getD r []) with
         | Except.ok col => (r, col, { w with chunks := w.chunks })
         | Except.error _ =>
           (r, (w.chunks.getD r []).length,
            { w with
              chunks := w.chunks.set r
                (w.chunks.getD r [] ++ [Chunk.generate x y w.noise w.seed]),
              modified := true }))
      | Except.error _ =>
        (w.chunks.length, 0,
         { w with
           chunks := (w.chunks ++ [[]]).set w.chunks.length
             [Chunk.generate x y w.noise w.seed],
           modified := true }) := by
  unfold World.findChunkIdx
  rcases hrow : binarySearchBy (fun r => cmp3 (rowKey r) (y * 16)) w.chunks with j | r
  · have hgetd : (w.chunks ++ [[]]).getD w.chunks.length [] = [] :=
      getD_append_singleton_length w.chunks [] []
    simp only [hgetd, binarySearchBy_nil, List.nil_append, List.length_singleton]
  · rcases hcol : binarySearchBy (fun c => cmp3 c.x (x * 16)) (w.chunks.getD r []) with j | k
    · simp only [hcol, List.length_append, List.length_singleton, Nat.add_sub_cancel]
    · simp only [hcol]

theorem pairwise_set_key_gen {α K : Type} {key : α → K} {R : K → K → Prop} {l : List α}
    {i : ℕ} {v : α} (hi : i < l.length) (hk : key (l[i]) = key v)
    (h : l.Pairwise (fun a b => R (key a) (key b))) :
    (l.set i v).Pairwise (fun a b => R (key a) (key b)) := by
  rw [List.pairwise_iff_getElem] at h ⊢
  intro a b ha hb hab
  rw [List.length_set] at ha hb
  rw [List.getElem_set, List.getElem_set]
  by_cases h1 : i = a
  · by_cases h2 : i = b
    · omega
    · subst h1
      rw [if_pos rfl, if_neg h2, ← hk]
      exact h i b ha hb hab
  · by_cases h2 : i = b
    · subst h2
      rw [if_neg h1, if_pos rfl, ← hk]
      exact h a i ha hb hab
    · rw [if_neg h1, if_neg h2]
      exact h a b ha hb hab

theorem rowKey_set_of_eq {row : List Chunk} {k : ℕ} {c : Chunk}
    (hk : k < row.length) (hy : c.y = (row[k]).y) :
    rowKey (row.set k c) = rowKey row := by
  rcases row with _ | ⟨h0, t⟩
  · rfl
  · rcases k with _ | k
    · unfold rowKey
      show c.y = h0.y
      exact hy
    · rfl

theorem rowKey_append_of_ne_nil {row : List Chunk} (h : row ≠ []) (e : List Chunk) :
    rowKey (row ++ e) = rowKey row := by
  rcases row with _ | ⟨h0, t⟩
  · exact absurd rfl h
  · rfl

theorem flatten_set_append {α : Type} :
    ∀ (l : List (List α)) (r : ℕ) (hr : r < l.length) (extra : List α),
      ((l.set r ((l[r]) ++ extra)).flatten).Perm (l.flatten ++ extra) := by
  intro l
  induction l with
  | nil => intro r hr; simp at hr
  | cons hd t ih =>
    intro r hr extra
    rcases r with _ | r
    · show ((hd ++ extra) :: t).flatten.Perm ((hd :: t).flatten ++ extra)
      rw [List.flatten_cons, List.flatten_cons, List.append_assoc, List.append_assoc]
      exact List.Perm.append_left hd List.perm_append_comm
    · have hrt : r < t.length := by simpa using hr
      show (hd :: t.set r ((t[r]) ++ extra)).flatten.Perm
        ((hd :: t).flatten ++ extra)
      rw [List.flatten_cons, List.flatten_cons, List.append_assoc]
      exact List.Perm.append_left hd (ih r (by simpa using hr) extra)

end Spellcoder

namespace Spellcoder

theorem binarySearchBy_ok_lt {α : Type} [Inhabited α] {g : α → Ordering} {l : List α} {i : ℕ}
    (h : binarySearchBy g l = Except.ok i) : i < l.length :=
  (bsGo_ok h).2.1

/-- The three possible outcomes of `World::get_chunk`'s index computation:
both keys found (world untouched), row found but chunk missing (chunk
generated and appended to that row), or row missing (fresh row with the
generated chunk appended). -/
theorem findChunkIdx_cases (w : World) (x y : ℤ) :
    (∃ r k, ∃ hr : r < w.chunks.length, ∃ hk : k < (w.chunks[r]).length,
      w.findChunkIdx x y = (r, k, w) ∧
      rowKey (w.chunks[r]) = y * 16 ∧
      ((w.chunks[r])[k]).x = x * 16) ∨
    (∃ r, ∃ hr : r < w.chunks.length,
      w.findChunkIdx x y =
        (r, (w.chunks[r]).length,
          { w with
            chunks := w.chunks.set r
              ((w.chunks[r]) ++ [Chunk.generate x y w.noise w.seed]),
            modified := true }) ∧
      rowKey (w.chunks[r]) = y * 16) ∨
    w.findChunkIdx x y =
      (w.chunks.length, 0,
        { w with
          chunks := w.chunks ++ [[Chunk.generate x y w.noise w.seed]],
          modified := true }) := by
  have hfe := findChunkIdx_eq w x y
  rcases hrow : binarySearchBy (fun r => cmp3 (rowKey r) (y * 16)) w.chunks with j | r
  · rw [hrow] at hfe
    have hfe2 : w.findChunkIdx x y =
        (w.chunks.length, 0,
          { w with
            chunks := (w.chunks ++ [[]]).set w.chunks.length
              [Chunk.generate x y w.noise w.seed],
            modified := true }) := hfe
    right; right
    rw [hfe2, set_last_append]
  · rw [hrow] at hfe
    rcases binarySearchBy_ok_key hrow with ⟨hr, hrkey⟩
    have hgd : w.chunks.getD r [] = w.chunks[r] := List.getD_eq_getElem _ _ hr
    have hfe2 : w.findChunkIdx x y =
        (match binarySearchBy (fun c => cmp3 c.x (x * 16)) (w.chunks.getD r []) with
         | Except.ok col => (r, col, { w with chunks := w.chunks })
         | Except.error _ =>
           (r, (w.chunks.getD r []).length,
            { w with
              chunks := w.chunks.set r
                (w.chunks.getD r [] ++ [Chunk.generate x y w.noise w.seed]),
              modified := true })) := hfe
    rcases hcol : binarySearchBy (fun c => cmp3 c.x (x * 16)) (w.chunks.getD r []) with j | k
    · rw [hcol] at hfe2
      rw [hgd] at hfe2
      right; left
      exact ⟨r, hr, hfe2, hrkey⟩
    · rw [hcol] at hfe2
      rw [hgd] at hcol
      rcases binarySearchBy_ok_key hcol with ⟨hk, hckey⟩
      left
      exact ⟨r, k, hr, hk, hfe2, hrkey, hckey⟩

/-- Value of `World::get_chunk` in terms of the index computation. -/
theorem get_chunk_of_idx {w : World} {x y : ℤ} {r k : ℕ} {w2 : World}
    (heq : w.findChunkIdx x y = (r, k, w2)) :
    w.get_chunk x y = ((w2.chunks.getD r []).getD k default, w2) := by
  unfold World.get_chunk
  rw [heq]

/-- Value of `World::set_pixel` in terms of the index computation. -/
theorem set_pixel_of_idx {w : World} {x y : ℤ} {p : Pixel} {r k : ℕ} {w2 : World}
    (heq : w.findChunkIdx (sarI64 x 4) (sarI64 y 4) = (r, k, w2)) :
    w.set_pixel x y p =
      { w2 with
        chunks := w2.chunks.set r ((w2.chunks.getD r []).set k
          (((w2.chunks.getD r []).getD k default).set_pixel p)) } := by
  unfold World.set_pixel
  rw [heq]

theorem goodWorld_new (noise : ℚ → ℚ → ℕ → ℚ) (seed : ℕ) : GoodWorld (World.new noise seed) := by
  intro row hrow
  exact absurd hrow (List.not_mem_nil row)

theorem goodWorld_genRow {w : World} {x y : ℤ} {r : ℕ} (hr : r < w.chunks.length)
    (h : GoodWorld w) :
    GoodWorld { w with
      chunks := w.chunks.set r ((w.chunks[r]) ++ [Chunk.generate x y w.noise w.seed]),
      modified := true } := by
  intro row' hrow' c hc
  rcases List.mem_or_eq_of_mem_set hrow' with hmem | rfl
  · exact h row' hmem c hc
  · rcases List.mem_append.mp hc with hcm | hcm
    · exact h _ (List.getElem_mem hr) c hcm
    · rcases List.mem_singleton.mp hcm with rfl
      exact generate_good x y w.noise w.seed

theorem goodWorld_newRow {w : World} {x y : ℤ} (h : GoodWorld w) :
    GoodWorld { w with
      chunks := w.chunks ++ [[Chunk.generate x y w.noise w.seed]],
      modified := true } := by
  intro row' hrow' c hc
  rcases List.mem_append.mp hrow' with hmem | hmem
  · exact h row' hmem c hc
  · rcases List.mem_singleton.mp hmem with rfl
    rcases List.mem_singleton.mp hc with rfl
    exact generate_good x y w.noise w.seed

theorem get_chunk_good {w : World} (x y : ℤ) (h : GoodWorld w) :
    GoodChunk (w.get_chunk x y).1 ∧ GoodWorld (w.get_chunk x y).2 := by
  rcases findChunkIdx_cases w x y with
    ⟨r, k, hr, hk, heq, _, _⟩ | ⟨r, hr, heq, _⟩ | heq
  · rw [get_chunk_of_idx heq]
    refine ⟨?_, h⟩
    show GoodChunk ((w.chunks.getD r []).getD k default)
    rw [List.getD_eq_getElem _ _ hr, List.getD_eq_getElem _ _ hk]
    exact h _ (List.getElem_mem hr) _ (List.getElem_mem hk)
  · rw [get_chunk_of_idx heq]
    refine ⟨?_, goodWorld_genRow hr h⟩
    show GoodChunk (((w.chunks.set r ((w.chunks[r]) ++
      [Chunk.generate x y w.noise w.seed])).getD r []).getD (w.chunks[r]).length default)
    rw [list_getD_set_self _ _ hr, getD_append_singleton_length]
    exact generate_good x y w.noise w.seed
  · rw [get_chunk_of_idx heq]
    refine ⟨?_, goodWorld_newRow h⟩
    show GoodChunk (((w.chunks ++ [[Chunk.generate x y w.noise w.seed]]).getD
      w.chunks.length []).getD 0 default)
    rw [getD_append_singleton_length]
    exact generate_good x y w.noise w.seed

theorem world_set_pixel_good {w : World} (x y : ℤ) (p : Pixel) (h : GoodWorld w) :
    GoodWorld (w.set_pixel x y p) := by
  rcases findChunkIdx_cases w (sarI64 x 4) (sarI64 y 4) with
    ⟨r, k, hr, hk, heq, _, _⟩ | ⟨r, hr, heq, _⟩ | heq
  · rw [set_pixel_of_idx heq]
    intro row' hrow' c hc
    rcases List.mem_or_eq_of_mem_set hrow' with hmem | rfl
    · exact h row' hmem c hc
    · rcases List.mem_or_eq_of_mem_set hc with hcm | rfl
      · rw [List.getD_eq_getElem _ _ hr] at hcm
        exact h _ (List.getElem_mem hr) c hcm
      · apply set_pixel_good
        rw [List.getD_eq_getElem _ _ hr, List.getD_eq_getElem _ _ hk]
        exact h _ (List.getElem_mem hr) _ (List.getElem_mem hk)
  · rw [set_pixel_of_idx heq]
    have hrowval : ({ w with
        chunks := w.chunks.set r ((w.chunks[r]) ++
          [Chunk.generate (sarI64 x 4) (sarI64 y 4) w.noise w.seed]),
        modified := true } : World).chunks.getD r [] =
        (w.chunks[r]) ++ [Chunk.generate (sarI64 x 4) (sarI64 y 4) w.noise w.seed] :=
      list_getD_set_self _ _ hr
    rw [hrowval, getD_append_singleton_length, set_last_append]
    have hproj : ({ w with
        chunks := w.chunks.set r ((w.chunks[r]) ++
          [Chunk.generate (sarI64 x 4) (sarI64 y 4) w.noise w.seed]),
        modified := true } : World).chunks = w.chunks.set r ((w.chunks[r]) ++
          [Chunk.generate (sarI64 x 4) (sarI64 y 4) w.noise w.seed]) := rfl
    rw [hproj, List.set_set]
    intro row' hrow' c hc
    rcases List.mem_or_eq_of_mem_set hrow' with hmem | rfl
    · exact h row' hmem c hc
    · rcases List.mem_append.mp hc with hcm | hcm
      · exact h _ (List.getElem_mem hr) c hcm
      · rcases List.mem_singleton.mp hcm with rfl
        exact set_pixel_good p (generate_good _ _ w.noise w.seed)
  · rw [set_pixel_of_idx heq]
    have hrowval : ({ w with
        chunks := w.chunks ++ [[Chunk.generate (sarI64 x 4) (sarI64 y 4) w.noise w.seed]],
        modified := true } : World).chunks.getD w.chunks.length [] =
        [Chunk.generate (sarI64 x 4) (sarI64 y 4) w.noise w.seed] :=
      getD_append_singleton_length _ _ _
    rw [hrowval]
    have hval : ([Chunk.generate (sarI64 x 4) (sarI64 y 4) w.noise w.seed].getD 0
        default) = Chunk.generate (sarI64 x 4) (sarI64 y 4) w.noise w.seed := rfl
    rw [hval]
    have hsetval : ([Chunk.generate (sarI64 x 4) (sarI64 y 4) w.noise w.seed].set 0
        ((Chunk.generate (sarI64 x 4) (sarI64 y 4) w.noise w.seed).set_pixel p)) =
        [(Chunk.generate (sarI64 x 4) (sarI64 y 4) w.noise w.seed).set_pixel p] := rfl
    rw [hsetval]
    have hproj : ({ w with
        chunks := w.chunks ++ [[Chunk.generate (sarI64 x 4) (sarI64 y 4) w.noise w.seed]],
        modified := true } : World).chunks =
        w.chunks ++ [[Chunk.generate (sarI64 x 4) (sarI64 y 4) w.noise w.seed]] := rfl
    rw [hproj, set_last_append]
    intro row' hrow' c hc
    rcases List.mem_append.mp hrow' with hmem | hmem
    · exact h row' hmem c hc
    · rcases List.mem_singleton.mp hmem with rfl
      rcases List.mem_singleton.mp hc with rfl
      exact set_pixel_good p (generate_good _ _ w.noise w.seed)

theorem sort_chunks_good {w : World} (h : GoodWorld w) : GoodWorld w.sort_chunks := by
  intro row' hrow' c hc
  unfold World.sort_chunks at hrow'
  rcases List.mem_map.mp hrow' with ⟨row0, hrow0, rfl⟩
  have hrow0mem : row0 ∈ w.chunks :=
    (List.perm_insertionSort (fun ra rb => rowKey ra ≤ rowKey rb) w.chunks).mem_iff.mp hrow0
  have hcmem : c ∈ row0 :=
    (List.perm_insertionSort (fun a b : Chunk => a.x ≤ b.x) row0).mem_iff.mp hc
  exact h row0 hrow0mem c hcmem

theorem goodWorld_runOps (noise : ℚ → ℚ → ℕ → ℚ) (seed : ℕ) (ops : List WOp) :
    GoodWorld (runOps (World.new noise seed) ops) := by
  have hstep : ∀ (ops : List WOp) (w : World), GoodWorld w → GoodWorld (runOps w ops) := by
    intro ops
    induction ops with
    | nil => intro w h; exact h
    | cons op ops ih =>
      intro w h
      show GoodWorld (runOps (WOp.apply w op) ops)
      apply ih
      rcases op with ⟨a, b⟩ | ⟨a, b, p⟩ | _
      · exact (get_chunk_good a b h).2
      · exact world_set_pixel_good a b p h
      · exact sort_chunks_good h
  exact hstep ops _ (goodWorld_new noise seed)

theorem world_get_pixel_val (w : World) (x y : ℤ) :
    w.get_pixel x y =
      (match (w.get_chunk (sarI64 x 4) (sarI64 y 4)).1.get_pixel
          (usizeOfI64 x % 16) (usizeOfI64 y % 16) with
       | Except.ok p => (some p, (w.get_chunk (sarI64 x 4) (sarI64 y 4)).2)
       | Except.error _ => (none, (w.get_chunk (sarI64 x 4) (sarI64 y 4)).2)) := rfl

theorem get_pixel_isSome {w : World} (h : GoodWorld w) (x y : ℤ) :
    ((w.get_pixel x y).1).isSome = true := by
  have hchunk := (get_chunk_good (sarI64 x 4) (sarI64 y 4) h).1
  rcases hchunk with ⟨hlen, hcols⟩
  have hlx : usizeOfI64 x % 16 < 16 := Nat.mod_lt _ (by norm_num)
  have hly : usizeOfI64 y % 16 < 16 := Nat.mod_lt _ (by norm_num)
  rcases hcols _ hlx with ⟨hsort, hcov⟩
  rcases hcov _ hly with ⟨q, hq, hqy⟩
  rcases List.mem_iff_getElem.mp hq with ⟨i, hi, rfl⟩
  have hmod : (usizeOfI64 y % 16) % 256 = usizeOfI64 y % 16 := Nat.mod_eq_of_lt (by omega)
  have hkey : (((w.get_chunk (sarI64 x 4) (sarI64 y 4)).1.column
      (usizeOfI64 x % 16))[i]).y = (usizeOfI64 y % 16) % 256 := by
    rw [hmod]
    exact hqy
  rcases binarySearchBy_found hsort hi hkey with ⟨j, hj, hok, _⟩
  have hgp : (w.get_chunk (sarI64 x 4) (sarI64 y 4)).1.get_pixel
      (usizeOfI64 x % 16) (usizeOfI64 y % 16) =
      Except.ok (((w.get_chunk (sarI64 x 4) (sarI64 y 4)).1.column
        (usizeOfI64 x % 16)).getD j default) := by
    unfold Chunk.get_pixel
    rw [hok]
  rw [world_get_pixel_val, hgp]
  rfl

/-- C5: starting from a fresh world, after any sequence of `get_chunk`,
`set_cell` and `sort_chunks` operations, `World::get_cell` never reaches
its fatal "pixel not found" branch: the in-chunk lookup always finds an
exact match (every stored chunk was produced by `Chunk::generate`, whose
columns cover all 16 local rows, and `set_cell` never removes cells). -/
theorem c5_get_cell_never_panics :
    ∀ (noise : ℚ → ℚ → ℕ → ℚ) (seed : ℕ) (ops : List WOp) (x y : ℤ),
      (((runOps (World.new noise seed) ops).get_pixel x y).1).isSome = true :=
  fun noise seed ops x y => get_pixel_isSome (goodWorld_runOps noise seed ops) x y

end Spellcoder

namespace Spellcoder

/-! ### Lookup in a sorted world (C1, C2) -/

theorem findChunkIdx_found_at {w : World} {x y : ℤ} {r k : ℕ}
    (hs : SortedWorld w)
    (hr : r < w.chunks.length) (hk : k < (w.chunks[r]).length)
    (hky : rowKey (w.chunks[r]) = y * 16)
    (hkx : (((w.chunks[r]))[k]).x = x * 16) :
    w.findChunkIdx x y = (r, k, w) := by
  have hrowsearch : binarySearchBy (fun row => cmp3 (rowKey row) (y * 16)) w.chunks =
      Except.ok r :=
    binarySearchBy_found_strict hs.1 hr hky
  have hfe := findChunkIdx_eq w x y
  rw [hrowsearch] at hfe
  have hgd : w.chunks.getD r [] = w.chunks[r] := List.getD_eq_getElem _ _ hr
  have hfe2 : w.findChunkIdx x y =
      (match binarySearchBy (fun c => cmp3 c.x (x * 16)) (w.chunks.getD r []) with
       | Except.ok col => (r, col, { w with chunks := w.chunks })
       | Except.error _ =>
         (r, (w.chunks.getD r []).length,
          { w with
            chunks := w.chunks.set r
              (w.chunks.getD r [] ++ [Chunk.generate x y w.noise w.seed]),
            modified := true })) := hfe
  have hcolsearch : binarySearchBy (fun c => cmp3 c.x (x * 16)) (w.chunks.getD r []) =
      Except.ok k := by
    rw [hgd]
    exact binarySearchBy_found_strict
      ((hs.2 _ (List.getElem_mem hr)).1) hk hkx
  rw [hcolsearch] at hfe2
  exact hfe2

/-- C1 (amended): in a world whose chunk index is sorted by its keys and
which already stores the chunk for coordinate `(x, y)`, `get_chunk`
leaves the world untouched (no regeneration, no duplicate appended) and a
second call returns the same chunk; the returned chunk carries the
requested origin `(x*16, y*16)`.  Without the sortedness hypothesis the
claim fails (see the counterexample): an unsorted append can hide the
stored chunk from the binary search and the call regenerates it. -/
theorem c1_get_chunk_idempotent (w : World) (x y : ℤ)
    (hs : SortedWorld w) (hp : HasChunk w x y) :
    (w.get_chunk x y).2 = w ∧
    ((w.get_chunk x y).2.get_chunk x y).1 = (w.get_chunk x y).1 ∧
    ((w.get_chunk x y).2.get_chunk x y).2 = w ∧
    (w.get_chunk x y).1.x = x * 16 ∧ (w.get_chunk x y).1.y = y * 16 := by
  rcases hp with ⟨row0, hrow0, hkey0, c0, hc0, hcx0⟩
  rcases List.mem_iff_getElem.mp hrow0 with ⟨r, hr, hrval⟩
  rcases List.mem_iff_getElem.mp hc0 with ⟨k, hk, hkval⟩
  have hk2 : k < (w.chunks[r]).length := by rw [hrval]; exact hk
  have hky : rowKey (w.chunks[r]) = y * 16 := by rw [hrval]; exact hkey0
  have hkx : ((w.chunks[r])[k]).x = x * 16 := by
    have hv : (w.chunks[r])[k] = c0 := by
      have := hkval
      revert hk2
      rw [hrval]
      intro hk2
      exact hkval
    rw [hv]
    exact hcx0
  have heq := findChunkIdx_found_at hs hr hk2 hky hkx
  have hgc := get_chunk_of_idx heq
  rw [hgc]
  have hchunkval : (w.chunks.getD r []).getD k default = (w.chunks[r])[k] := by
    rw [List.getD_eq_getElem _ _ hr, List.getD_eq_getElem _ _ hk2]
  refine ⟨rfl, ?_, ?_, ?_, ?_⟩
  · rw [hgc]
  · rw [hgc]
  · show ((w.chunks.getD r []).getD k default).x = x * 16
    rw [hchunkval]
    exact hkx
  · show ((w.chunks.getD r []).getD k default).y = y * 16
    rw [hchunkval]
    have hcy : ∀ c ∈ w.chunks[r], c.y = rowKey (w.chunks[r]) :=
      (hs.2 _ (List.getElem_mem hr)).2
    rw [hcy _ (List.getElem_mem hk2), hky]

/-- Witness for the amended C1: a one-chunk sorted world at chunk
coordinate (-1, -2). -/
theorem c1_get_chunk_idempotent_witness :
    SortedWorld ⟨[[⟨[], -16, -32⟩]], fun _ _ _ => 0, 0, false⟩ ∧
    HasChunk ⟨[[⟨[], -16, -32⟩]], fun _ _ _ => 0, 0, false⟩ (-1) (-2) ∧
    ((((⟨[[⟨[], -16, -32⟩]], fun _ _ _ => 0, 0, false⟩ : World).get_chunk (-1) (-2)).2 =
        ⟨[[⟨[], -16, -32⟩]], fun _ _ _ => 0, 0, false⟩) ∧
      ((((⟨[[⟨[], -16, -32⟩]], fun _ _ _ => 0, 0, false⟩ : World).get_chunk (-1) (-2)).2.get_chunk
          (-1) (-2)).1 =
        ((⟨[[⟨[], -16, -32⟩]], fun _ _ _ => 0, 0, false⟩ : World).get_chunk (-1) (-2)).1) ∧
      ((((⟨[[⟨[], -16, -32⟩]], fun _ _ _ => 0, 0, false⟩ : World).get_chunk (-1) (-2)).2.get_chunk
          (-1) (-2)).2 =
        ⟨[[⟨[], -16, -32⟩]], fun _ _ _ => 0, 0, false⟩) ∧
      ((⟨[[⟨[], -16, -32⟩]], fun _ _ _ => 0, 0, false⟩ : World).get_chunk (-1) (-2)).1.x =
        (-1) * 16 ∧
      ((⟨[[⟨[], -16, -32⟩]], fun _ _ _ => 0, 0, false⟩ : World).get_chunk (-1) (-2)).1.y =
        (-2) * 16) := by
  have hs : SortedWorld ⟨[[⟨[], -16, -32⟩]], fun _ _ _ => 0, 0, false⟩ := by
    constructor
    · exact List.pairwise_singleton _ _
    · intro row hrow
      rcases List.mem_singleton.mp hrow with rfl
      refine ⟨List.pairwise_singleton _ _, ?_⟩
      intro c hc
      rcases List.mem_singleton.mp hc with rfl
      rfl
  have hp : HasChunk ⟨[[⟨[], -16, -32⟩]], fun _ _ _ => 0, 0, false⟩ (-1) (-2) := by
    refine ⟨[⟨[], -16, -32⟩], List.mem_singleton.mpr rfl, by decide, ⟨[], -16, -32⟩,
      List.mem_singleton.mpr rfl, by decide⟩
  exact ⟨hs, hp, c1_get_chunk_idempotent _ (-1) (-2) hs hp⟩

end Spellcoder

namespace Spellcoder

/-- Counterexample to C1 as stated: in a reachable world holding chunks
(0,1) and (0,2) (rows with keys 16 and 32), two successive
`get_chunk(0,0)` calls with no `sort_chunks` between them each append a
fresh copy of chunk (0,0): the first call's append breaks row order, the
second call's binary search misses it and regenerates.  After the pair
the world stores 4 chunks, two of which have origin (0,0). -/
theorem c1_counterexample :
    (totalChunks ((((World.new (fun _ _ _ => 1) 0).get_chunk 0 1).2.get_chunk 0 2).2.get_chunk
        0 0).2,
     totalChunks (((((World.new (fun _ _ _ => 1) 0).get_chunk 0 1).2.get_chunk 0 2).2.get_chunk
        0 0).2.get_chunk 0 0).2,
     coordCount (((((World.new (fun _ _ _ => 1) 0).get_chunk 0 1).2.get_chunk 0 2).2.get_chunk
        0 0).2.get_chunk 0 0).2 0 0) = (3, 4, 2) := by
  with_unfolding_all rfl

end Spellcoder

namespace Spellcoder

theorem set_get_roundtrip_chunk {c0 : Chunk} {p : Pixel}
    (hstrict : StrictCols c0) (hlen : c0.pixels.length = 16)
    (hpx : p.x < 16) (hpy : p.y < 256) :
    (c0.set_pixel p).get_pixel p.x p.y = Except.ok p := by
  have hmod : p.y % 256 = p.y := Nat.mod_eq_of_lt hpy
  have hpxlen : p.x < c0.pixels.length := by omega
  rcases hres : binarySearchBy (fun a => cmp3 a.y p.y) (c0.column p.x) with j | i
  · -- miss: fall back to add_pixel
    have hspec := binarySearchBy_spec Pixel.y p.y (c0.column p.x)
      ((hstrict p.x).imp (fun hlt => le_of_lt hlt))
    rw [hres] at hspec
    rcases hspec with ⟨_, h2, h3⟩
    have hfresh : ∀ q ∈ c0.column p.x, q.y ≠ p.y := by
      intro q hq
      rcases List.mem_iff_getElem.mp hq with ⟨i, hilen, rfl⟩
      rcases Nat.lt_or_ge i j with hij | hij
      · exact ne_of_lt (h2 i hilen hij)
      · exact (ne_of_lt (h3 i hilen hij)).symm
    have hset : c0.set_pixel p = c0.add_pixel p := by
      unfold Chunk.set_pixel
      rw [hres]
    rw [hset]
    have hcol : (c0.add_pixel p).column p.x = sortByY (c0.column p.x ++ [p]) := by
      rw [add_pixel_column, if_pos ⟨rfl, hpxlen⟩]
    have hcolstrict : ((c0.add_pixel p).column p.x).Pairwise (fun a b => a.y < b.y) := by
      rw [hcol]
      exact sortByY_strict_of_fresh (hstrict p.x) hfresh
    have hpmem : p ∈ (c0.add_pixel p).column p.x := by
      rw [hcol, (sortByY_perm _).mem_iff]
      exact List.mem_append_right _ (List.mem_singleton.mpr rfl)
    rcases List.mem_iff_getElem.mp hpmem with ⟨i, hi, hival⟩
    have hkey : (((c0.add_pixel p).column p.x)[i]).y = p.y % 256 := by
      rw [hival, hmod]
    have hsearch := binarySearchBy_found_strict hcolstrict hi hkey
    unfold Chunk.get_pixel
    rw [hsearch]
    show Except.ok (((c0.add_pixel p).column p.x).getD i default) = Except.ok p
    rw [List.getD_eq_getElem _ _ hi, hival]
  · -- hit: overwrite in place
    rcases binarySearchBy_ok_key hres with ⟨hi, hkey⟩
    have hset : c0.set_pixel p =
        { c0 with pixels := c0.pixels.set p.x ((c0.column p.x).set i p) } := by
      unfold Chunk.set_pixel
      rw [hres]
    rw [hset]
    have hcol : ({ c0 with pixels := c0.pixels.set p.x ((c0.column p.x).set i p) } :
        Chunk).column p.x = (c0.column p.x).set i p := by
      unfold Chunk.column
      exact list_getD_set_self _ _ hpxlen
    have hcolstrict : ((c0.column p.x).set i p).Pairwise (fun a b => a.y < b.y) :=
      pairwise_set_key hi hkey (hstrict p.x)
    have hilt : i < ((c0.column p.x).set i p).length := by
      rw [List.length_set]; exact hi
    have hival : ((c0.column p.x).set i p)[i] = p := by
      rw [List.getElem_set, if_pos rfl]
    have hkey2 : (((c0.column p.x).set i p)[i]).y = p.y % 256 := by
      rw [hival, hmod]
    have hsearch := binarySearchBy_found_strict hcolstrict hilt hkey2
    unfold Chunk.get_pixel
    rw [hcol, hsearch]
    show Except.ok ((((c0.column p.x).set i p)).getD i default) = Except.ok p
    rw [List.getD_eq_getElem _ _ hilt, hival]

theorem sortedWorld_set {w : World} {r k : ℕ}
    (hr : r < w.chunks.length) (hk : k < (w.chunks[r]).length) {c1 : Chunk}
    (hx : c1.x = ((w.chunks[r])[k]).x) (hy : c1.y = ((w.chunks[r])[k]).y)
    (hs : SortedWorld w) :
    SortedWorld { w with chunks := w.chunks.set r ((w.chunks[r]).set k c1) } := by
  have hcy : c1.y = (w.chunks[r])[k].y := hy
  have hrk : rowKey ((w.chunks[r]).set k c1) = rowKey (w.chunks[r]) :=
    rowKey_set_of_eq hk hcy
  constructor
  · show (w.chunks.set r ((w.chunks[r]).set k c1)).Pairwise
      (fun r1 r2 => rowKey r1 < rowKey r2)
    exact pairwise_set_key_gen hr (by rw [hrk]) hs.1
  · intro row' hrow'
    rcases List.mem_or_eq_of_mem_set hrow' with hmem | rfl
    · exact hs.2 row' hmem
    · rcases hs.2 _ (List.getElem_mem hr) with ⟨hpair, hall⟩
      constructor
      · exact pairwise_set_key_gen hk (by rw [hx]) hpair
      · intro c hc
        rw [hrk]
        rcases List.mem_or_eq_of_mem_set hc with hcm | rfl
        · exact hall c hcm
        · rw [hy]
          exact hall _ (List.getElem_mem hk)

theorem hasChunk_indices {w : World} {x y : ℤ} (hp : HasChunk w x y) :
    ∃ r k, ∃ hr : r < w.chunks.length, ∃ hk : k < (w.chunks[r]).length,
      rowKey (w.chunks[r]) = y * 16 ∧ ((w.chunks[r])[k]).x = x * 16 := by
  rcases hp with ⟨row0, hrow0, hkey0, c0, hc0, hcx0⟩
  rcases List.mem_iff_getElem.mp hrow0 with ⟨r, hr, hrval⟩
  rcases List.mem_iff_getElem.mp hc0 with ⟨k, hk, hkval⟩
  have hk2 : k < (w.chunks[r]).length := by rw [hrval]; exact hk
  refine ⟨r, k, hr, hk2, by rw [hrval]; exact hkey0, ?_⟩
  have hv : (w.chunks[r])[k] = c0 := by
    revert hk2
    rw [hrval]
    intro hk2
    exact hkval
  rw [hv]
  exact hcx0

/-- C2 (amended): `set_cell(x, y, cell)` followed by `get_cell(x, y)`
returns exactly the stored cell — including for negative coordinates and
across chunk boundaries — provided the world's chunk index is sorted and
already holds the target chunk (otherwise the deferred-sort lookup bug of
C1 can reach a different chunk), the chunk's columns are strictly sorted
16-column storage, and the cell's own local coordinates agree with the
Euclidean remainders of the world coordinates (the source derives the
column to write from `cell.x`/`cell.y`, not from `x`/`y`; see the
counterexample for a cell violating this). -/
theorem c2_set_get_roundtrip (w : World) (x y : ℤ) (p : Pixel)
    (hs : SortedWorld w)
    (hgood : ∀ row ∈ w.chunks, ∀ c ∈ row, StrictCols c ∧ c.pixels.length = 16)
    (hp : HasChunk w (sarI64 x 4) (sarI64 y 4))
    (hpx : p.x = usizeOfI64 x % 16) (hpy : p.y = usizeOfI64 y % 16) :
    ((w.set_pixel x y p).get_pixel x y).1 = some p := by
  rcases hasChunk_indices hp with ⟨r, k, hr, hk, hky, hkx⟩
  have heq := findChunkIdx_found_at hs hr hk hky hkx
  have hset := @set_pixel_of_idx w x y p r k w heq
  have hchunkval : ((w.chunks.getD r []).getD k default) = (w.chunks[r])[k] := by
    rw [List.getD_eq_getElem _ _ hr, List.getD_eq_getElem _ _ hk]
  have hrowval : w.chunks.getD r [] = w.chunks[r] := List.getD_eq_getElem _ _ hr
  rw [hchunkval, hrowval] at hset
  set c0 := (w.chunks[r])[k] with hc0
  set c1 := c0.set_pixel p with hc1
  set w2 := { w with chunks := w.chunks.set r ((w.chunks[r]).set k c1) } with hw2
  have hs2 : SortedWorld w2 :=
    sortedWorld_set hr hk (set_pixel_coords c0 p).1 (set_pixel_coords c0 p).2 hs
  have hr2 : r < w2.chunks.length := by
    show r < (w.chunks.set r ((w.chunks[r]).set k c1)).length
    rw [List.length_set]
    exact hr
  have hrowval2 : w2.chunks[r] = (w.chunks[r]).set k c1 := by
    show (w.chunks.set r ((w.chunks[r]).set k c1))[r] = _
    rw [List.getElem_set, if_pos rfl]
  have hk2 : k < (w2.chunks[r]).length := by
    rw [hrowval2, List.length_set]
    exact hk
  have hchunkval2 : (w2.chunks[r])[k] = c1 := by
    revert hk2
    rw [hrowval2]
    intro hk2
    rw [List.getElem_set, if_pos rfl]
  have hky2 : rowKey (w2.chunks[r]) = sarI64 y 4 * 16 := by
    rw [hrowval2, rowKey_set_of_eq hk (set_pixel_coords c0 p).2, hky]
  have hkx2 : ((w2.chunks[r])[k]).x = sarI64 x 4 * 16 := by
    rw [hchunkval2, hc1, (set_pixel_coords c0 p).1]
    exact hkx
  have heq2 := findChunkIdx_found_at hs2 hr2 hk2 hky2 hkx2
  have hgc2 := get_chunk_of_idx heq2
  have hchunkat : ((w2.chunks.getD r []).getD k default) = c1 := by
    rw [List.getD_eq_getElem _ _ hr2, List.getD_eq_getElem _ _ hk2]
    exact hchunkval2
  rcases hgood _ (List.getElem_mem hr) _ (List.getElem_mem hk) with ⟨hstrict0, hlen0⟩
  have hround : c1.get_pixel p.x p.y = Except.ok p :=
    set_get_roundtrip_chunk hstrict0 hlen0 (by rw [hpx]; exact Nat.mod_lt _ (by norm_num))
      (by rw [hpy]; have := Nat.mod_lt (usizeOfI64 y) (show 0 < 16 by norm_num); omega)
  rw [← hset] at hgc2
  rw [world_get_pixel_val, hgc2]
  have hchunkat2 : ((w.set_pixel x y p).chunks.getD r []).getD k default = c1 := by
    rw [hset]
    exact hchunkat
  rw [hchunkat2, ← hpx, ← hpy, hround]

theorem strictCols_replicate_nil (cx cy : ℤ) :
    StrictCols ⟨List.replicate 16 [], cx, cy⟩ := by
  intro x
  have h : Chunk.column ⟨List.replicate 16 [], cx, cy⟩ x = [] := by
    show (List.replicate 16 ([] : List Pixel)).getD x [] = []
    rw [List.getD_eq_getElem?_getD, List.getElem?_replicate]
    split <;> rfl
  rw [h]
  exact List.Pairwise.nil

/-- C2 witness: a concrete sorted world already holding chunk (-1, -2)
with empty 16-column storage, where setting then getting the cell at the
negative world coordinates (-5, -20) returns exactly the stored cell. -/
theorem c2_set_get_roundtrip_witness :
    SortedWorld ⟨[[⟨List.replicate 16 [], -16, -32⟩]], fun _ _ _ => 0, 0, false⟩ ∧
    HasChunk ⟨[[⟨List.replicate 16 [], -16, -32⟩]], fun _ _ _ => 0, 0, false⟩
      (sarI64 (-5) 4) (sarI64 (-20) 4) ∧
    (((⟨[[⟨List.replicate 16 [], -16, -32⟩]], fun _ _ _ => 0, 0, false⟩ : World).set_pixel
        (-5) (-20) ⟨11, 12, PixelMaterial.BLOCK, ⟨1, 2, 3, 255⟩⟩).get_pixel (-5) (-20)).1 =
      some ⟨11, 12, PixelMaterial.BLOCK, ⟨1, 2, 3, 255⟩⟩ :=
  have hs : SortedWorld ⟨[[⟨List.replicate 16 [], -16, -32⟩]], fun _ _ _ => 0, 0, false⟩ := by
    constructor
    · exact List.pairwise_singleton _ _
    · intro row hrow
      rcases List.mem_singleton.mp hrow with rfl
      refine ⟨List.pairwise_singleton _ _, ?_⟩
      intro c hc
      rcases List.mem_singleton.mp hc with rfl
      rfl
  have hp : HasChunk ⟨[[⟨List.replicate 16 [], -16, -32⟩]], fun _ _ _ => 0, 0, false⟩
      (sarI64 (-5) 4) (sarI64 (-20) 4) :=
    ⟨[⟨List.replicate 16 [], -16, -32⟩], List.mem_singleton.mpr rfl, by decide,
      ⟨List.replicate 16 [], -16, -32⟩, List.mem_singleton.mpr rfl, by decide⟩
  ⟨hs, hp,
    c2_set_get_roundtrip _ (-5) (-20) _ hs
      (by
        intro row hrow c hc
        rcases List.mem_singleton.mp hrow with rfl
        rcases List.mem_singleton.mp hc with rfl
        exact ⟨strictCols_replicate_nil _ _, by decide⟩)
      hp (by decide) (by decide)⟩

/-- C2 counterexample for the unamended claim: in a freshly generated
chunk, `set_cell(1, 0, cell)` with a cell whose own coordinates are
(0, 0) writes column 0 (the source indexes by `cell.x`/`cell.y`, not by
the passed world coordinates), so `get_cell(1, 0)` still returns the
generated cell of column 1, not the cell just stored. -/
theorem c2_counterexample :
    ((((World.new (fun _ _ _ => 0) 0).get_chunk 0 0).2.set_pixel 1 0
        ⟨0, 0, PixelMaterial.BLOCK, ⟨9, 9, 9, 255⟩⟩).get_pixel 1 0).1 ≠
      some ⟨0, 0, PixelMaterial.BLOCK, ⟨9, 9, 9, 255⟩⟩ := by
  have h : ((((World.new (fun _ _ _ => 0) 0).get_chunk 0 0).2.set_pixel 1 0
        ⟨0, 0, PixelMaterial.BLOCK, ⟨9, 9, 9, 255⟩⟩).get_pixel 1 0).1 =
      some (genPixel 0 0 (fun _ _ _ => 0) 0 1 0) := by
    with_unfolding_all rfl
  rw [h]
  intro hcontra
  have hx := congrArg Pixel.x (Option.some.inj hcontra)
  have h1 : (genPixel 0 0 (fun _ _ _ => 0) 0 1 0).x = 1 := by
    with_unfolding_all rfl
  rw [h1] at hx
  exact absurd hx (by decide)

/-- C7: `World::get_pixel`'s coordinate derivation has floor-division
semantics.  For every signed world coordinate `x` (ℤ models `i64`): the
chunk coordinate `x >> 4` equals the floor division `x.fdiv 16` (not
truncation toward zero), the local coordinate `(x as usize) % 16` equals
the Euclidean remainder `x mod 16`, that remainder lies in `[0, 16)`, and
chunk coordinate and remainder reconstruct `x`. -/
theorem c7_floor_division (x : ℤ) :
    sarI64 x 4 = Int.fdiv x 16 ∧
    ((usizeOfI64 x % 16 : ℕ) : ℤ) = x % 16 ∧
    0 ≤ x % 16 ∧ x % 16 < 16 ∧
    16 * sarI64 x 4 + x % 16 = x := by
  have h1 : sarI64 x 4 = Int.fdiv x 16 := by
    unfold sarI64
    rw [Int.shiftRight_eq_div_pow, Int.fdiv_eq_ediv x (by norm_num : (0:ℤ) ≤ 16)]
    norm_num
  have h2 : ((usizeOfI64 x % 16 : ℕ) : ℤ) = x % 16 := by
    unfold usizeOfI64
    have hnn : 0 ≤ x.emod (18446744073709551616:ℤ) := Int.emod_nonneg x (by norm_num)
    have hdvd : (16:ℤ) ∣ (18446744073709551616:ℤ) := ⟨1152921504606846976, by norm_num⟩
    push_cast [Int.toNat_of_nonneg hnn]
    show x % (18446744073709551616:ℤ) % 16 = x % 16
    exact Int.emod_emod_of_dvd x hdvd
  refine ⟨h1, h2, Int.emod_nonneg x (by norm_num), Int.emod_lt_of_pos x (by norm_num), ?_⟩
  rw [h1, Int.fdiv_eq_ediv x (by norm_num : (0:ℤ) ≤ 16)]
  exact Int.ediv_add_emod x 16

theorem f32AsI64_neg {q : ℚ} (h : 0 ≤ q) : f32AsI64 (-q) = -⌊q⌋ := by
  unfold f32AsI64
  rcases lt_or_eq_of_le h with h1 | h1
  · rw [if_pos (by linarith), neg_neg]
  · rw [← h1]
    norm_num

theorem f32AsI64_of_nonneg {q : ℚ} (h : 0 ≤ q) : f32AsI64 q = ⌊q⌋ := by
  unfold f32AsI64
  rw [if_neg (not_lt.mpr h)]

/-- C9: for a camera centered at the origin (`target + offset = 0`) and
any nonnegative screen extent, the visible chunk range contains chunk
(0, 0) — each half-open range has start ≤ 0 < end — and its size scales
linearly with the screen extent: exactly `2 + ⌊width/64⌋` columns and
`4 + ⌊height/64⌋` rows (the asymmetric constants coming from the fixed
(64, 128) margins). -/
theorem c9_visible_chunk_range (target offset screendims : ℚ × ℚ)
    (hcx : target.1 + offset.1 = 0) (hcy : target.2 + offset.2 = 0)
    (hw : 0 ≤ screendims.1) (hh : 0 ≤ screendims.2) :
    ((get_visible_chunks target offset screendims).1.1 ≤ 0 ∧
      0 < (get_visible_chunks target offset screendims).1.2) ∧
    ((get_visible_chunks target offset screendims).2.1 ≤ 0 ∧
      0 < (get_visible_chunks target offset screendims).2.2) ∧
    (get_visible_chunks target offset screendims).1.2 -
      (get_visible_chunks target offset screendims).1.1 =
      2 + ⌊screendims.1 / 64⌋ ∧
    (get_visible_chunks target offset screendims).2.2 -
      (get_visible_chunks target offset screendims).2.1 =
      4 + ⌊screendims.2 / 64⌋ := by
  have hdef : get_visible_chunks target offset screendims =
      ((f32AsI64 ((target.1 + offset.1 - 64 - screendims.1) / 16 / SCALE),
        f32AsI64 ((target.1 + offset.1 + 64) / 16 / SCALE)),
       (f32AsI64 ((target.2 + offset.2 - 128 - screendims.2) / 16 / SCALE),
        f32AsI64 ((target.2 + offset.2 + 128) / 16 / SCALE))) := rfl
  have m1 : (target.1 + offset.1 - 64 - screendims.1) / 16 / SCALE =
      -(screendims.1 / 64 + 1) := by
    rw [hcx]
    unfold SCALE
    ring
  have m2 : (target.1 + offset.1 + 64) / 16 / SCALE = 1 := by
    rw [hcx]
    unfold SCALE
    norm_num
  have m3 : (target.2 + offset.2 - 128 - screendims.2) / 16 / SCALE =
      -(screendims.2 / 64 + 2) := by
    rw [hcy]
    unfold SCALE
    ring
  have m4 : (target.2 + offset.2 + 128) / 16 / SCALE = 2 := by
    rw [hcy]
    unfold SCALE
    norm_num
  have e1 : f32AsI64 (-(screendims.1 / 64 + 1)) = -(⌊screendims.1 / 64⌋ + 1) := by
    rw [f32AsI64_neg (by positivity), Int.floor_add_one]
  have e2 : f32AsI64 1 = 1 := by
    rw [f32AsI64_of_nonneg (by norm_num), Int.floor_one]
  have e3 : f32AsI64 (-(screendims.2 / 64 + 2)) = -(⌊screendims.2 / 64⌋ + 2) := by
    rw [f32AsI64_neg (by positivity),
      show ((2:ℚ)) = ((2:ℤ) : ℚ) by norm_num, Int.floor_add_int]
  have e4 : f32AsI64 2 = 2 := by
    rw [f32AsI64_of_nonneg (by norm_num),
      show ((2:ℚ)) = ((2:ℤ) : ℚ) by norm_num, Int.floor_intCast]
  rw [hdef, m1, m2, m3, m4, e1, e2, e3, e4]
  have hf1 : 0 ≤ ⌊screendims.1 / 64⌋ := Int.floor_nonneg.mpr (by positivity)
  have hf2 : 0 ≤ ⌊screendims.2 / 64⌋ := Int.floor_nonneg.mpr (by positivity)
  dsimp only
  refine ⟨⟨by omega, by norm_num⟩, ⟨by omega, by norm_num⟩, by ring, by ring⟩

/-- C9 witness at target (0,0), offset (0,0), screen 640×480: the ranges
are [-11, 1) × [-9, 2), containing (0, 0), of sizes 12 = 2 + 640/64 and
11 = 4 + 480/64. -/
theorem c9_visible_chunk_range_witness :
    ((0:ℚ) + 0 = 0) ∧ ((0:ℚ) + 0 = 0) ∧ ((0:ℚ) ≤ 640) ∧ ((0:ℚ) ≤ 480) ∧
    (((get_visible_chunks (0, 0) (0, 0) (640, 480)).1.1 ≤ 0 ∧
      0 < (get_visible_chunks (0, 0) (0, 0) (640, 480)).1.2) ∧
    ((get_visible_chunks (0, 0) (0, 0) (640, 480)).2.1 ≤ 0 ∧
      0 < (get_visible_chunks (0, 0) (0, 0) (640, 480)).2.2) ∧
    (get_visible_chunks (0, 0) (0, 0) (640, 480)).1.2 -
      (get_visible_chunks (0, 0) (0, 0) (640, 480)).1.1 =
      2 + ⌊(640:ℚ) / 64⌋ ∧
    (get_visible_chunks (0, 0) (0, 0) (640, 480)).2.2 -
      (get_visible_chunks (0, 0) (0, 0) (640, 480)).2.1 =
      4 + ⌊(480:ℚ) / 64⌋) :=
  ⟨zero_add 0, zero_add 0, by decide, by decide,
    c9_visible_chunk_range (0, 0) (0, 0) (640, 480) (zero_add 0) (zero_add 0)
      (by decide) (by decide)⟩

/-! ### C10: row grouping and chunk-preservation of the world operations -/

theorem dvd_16_mul (y : ℤ) : (16:ℤ) ∣ y * 16 := ⟨y, by ring⟩

theorem rowsGrouped_new (noise : ℚ → ℚ → ℕ → ℚ) (seed : ℕ) :
    RowsGrouped (World.new noise seed) := by
  intro row hrow
  exact absurd hrow (List.not_mem_nil _)

theorem rowsGrouped_findChunkIdx {w : World} (x y : ℤ) (h : RowsGrouped w) :
    RowsGrouped (w.findChunkIdx x y).2.2 := by
  rcases findChunkIdx_cases w x y with
    ⟨r, k, hr, hk, heq, hkey, hx⟩ | ⟨r, hr, heq, hkey⟩ | heq
  · rw [heq]
    exact h
  · rw [heq]
    intro row hrow c hc
    have hgy : (Chunk.generate x y w.noise w.seed).y = y * 16 :=
      (generate_coords x y w.noise w.seed).2
    rcases List.mem_or_eq_of_mem_set hrow with hmem | heq2
    · exact h row hmem c hc
    · subst heq2
      by_cases hnil : w.chunks[r] = []
      · rw [hnil, List.nil_append] at hc ⊢
        rcases List.mem_singleton.mp hc with rfl
        exact ⟨rfl, by rw [hgy]; exact dvd_16_mul y⟩
      · rw [rowKey_append_of_ne_nil hnil]
        rcases List.mem_append.mp hc with hcm | hcg
        · exact h _ (List.getElem_mem hr) c hcm
        · rcases List.mem_singleton.mp hcg with rfl
          exact ⟨by rw [hgy, hkey], by rw [hgy]; exact dvd_16_mul y⟩
  · rw [heq]
    intro row hrow c hc
    rcases List.mem_append.mp hrow with hmem | hnew
    · exact h row hmem c hc
    · rcases List.mem_singleton.mp hnew with rfl
      rcases List.mem_singleton.mp hc with rfl
      exact ⟨rfl, by rw [(generate_coords x y w.noise w.seed).2]; exact dvd_16_mul y⟩

/-- `World::set_pixel`'s in-place chunk mutation, as a standalone world
transformation (the chunk at indices `(r, k)` is replaced by its
`set_pixel` image). -/
theorem rowsGrouped_set_entry {w : World} (h : RowsGrouped w) (r k : ℕ) (p : Pixel) :
    RowsGrouped
      { w with
        chunks := w.chunks.set r ((w.chunks.getD r []).set k
          (((w.chunks.getD r []).getD k default).set_pixel p)) } := by
  intro row hrow c hc
  rcases List.mem_or_eq_of_mem_set hrow with hmem | heq
  · exact h row hmem c hc
  · subst heq
    by_cases hrlen : r < w.chunks.length
    · have hgd : w.chunks.getD r [] = w.chunks[r] := List.getD_eq_getElem _ _ hrlen
      by_cases hklen : k < (w.chunks.getD r []).length
      · have hcy : (((w.chunks.getD r []).getD k default).set_pixel p).y =
            ((w.chunks.getD r [])[k]).y := by
          rw [(set_pixel_coords _ p).2, List.getD_eq_getElem _ _ hklen]
        rw [rowKey_set_of_eq hklen hcy]
        have hrmem : w.chunks.getD r [] ∈ w.chunks := by
          rw [hgd]
          exact List.getElem_mem hrlen
        rcases List.mem_or_eq_of_mem_set hc with hcm | hceq
        · exact h _ hrmem c hcm
        · subst hceq
          have hk2 := h _ hrmem ((w.chunks.getD r [])[k]) (List.getElem_mem hklen)
          exact ⟨hcy.trans hk2.1, by rw [hcy]; exact hk2.2⟩
      · rw [List.set_eq_of_length_le (by omega)] at hc ⊢
        rw [hgd] at hc ⊢
        exact h _ (List.getElem_mem hrlen) c hc
    · have hgd0 : w.chunks.getD r [] = [] := List.getD_eq_default _ _ (by omega)
      rw [hgd0] at hc
      rw [List.set_eq_of_length_le (by simp)] at hc
      exact absurd hc (List.not_mem_nil c)

theorem rowsGrouped_world_set_pixel {w : World} (x y : ℤ) (p : Pixel) (h : RowsGrouped w) :
    RowsGrouped (w.set_pixel x y p) :=
  rowsGrouped_set_entry (rowsGrouped_findChunkIdx (sarI64 x 4) (sarI64 y 4) h)
    (w.findChunkIdx (sarI64 x 4) (sarI64 y 4)).1
    (w.findChunkIdx (sarI64 x 4) (sarI64 y 4)).2.1 p

theorem flatten_map_perm {α : Type} (g : List α → List α)
    (hg : ∀ a, (g a).Perm a) : ∀ l : List (List α), ((l.map g).flatten).Perm l.flatten := by
  intro l
  induction l with
  | nil => exact List.Perm.refl _
  | cons hd t ih =>
    rw [List.map_cons, List.flatten_cons, List.flatten_cons]
    exact List.Perm.append (hg hd) ih

theorem rowsGrouped_sort_chunks {w : World} (h : RowsGrouped w) :
    RowsGrouped w.sort_chunks := by
  intro row hrow c hc
  have hrow2 : row ∈ (List.insertionSort (fun ra rb => rowKey ra ≤ rowKey rb) w.chunks).map
      (fun row => List.insertionSort (fun a b : Chunk => a.x ≤ b.x) row) := hrow
  rcases List.mem_map.mp hrow2 with ⟨row0, hrow0, hrowg⟩
  have hrow0w : row0 ∈ w.chunks :=
    (List.perm_insertionSort _ _).mem_iff.mp hrow0
  have hperm : row.Perm row0 := by
    rw [← hrowg]
    exact List.perm_insertionSort _ _
  have hcrow0 : c ∈ row0 := hperm.mem_iff.mp hc
  rcases h row0 hrow0w c hcrow0 with ⟨hcy, hdvd⟩
  refine ⟨?_, hdvd⟩
  rcases row with _ | ⟨r0, rt⟩
  · exact absurd hc (List.not_mem_nil c)
  · have hr0 : r0 ∈ row0 := hperm.mem_iff.mp (List.mem_cons_self r0 rt)
    show c.y = r0.y
    rw [hcy, (h row0 hrow0w r0 hr0).1]

theorem rowsGrouped_apply {w : World} (h : RowsGrouped w) (op : WOp) :
    RowsGrouped (WOp.apply w op) := by
  rcases op with ⟨x, y⟩ | ⟨x, y, p⟩ | _
  · exact rowsGrouped_findChunkIdx x y h
  · exact rowsGrouped_world_set_pixel x y p h
  · exact rowsGrouped_sort_chunks h

theorem rowsGrouped_runOps (noise : ℚ → ℚ → ℕ → ℚ) (seed : ℕ) (ops : List WOp) :
    RowsGrouped (runOps (World.new noise seed) ops) := by
  have hgen : ∀ (ops : List WOp) (w : World), RowsGrouped w → RowsGrouped (runOps w ops) := by
    intro ops
    induction ops with
    | nil => exact fun w hw => hw
    | cons op t ih => exact fun w hw => ih _ (rowsGrouped_apply hw op)
  exact hgen ops _ (rowsGrouped_new noise seed)

theorem coordBag_le_of_flatten_perm_append {w1 w2 : World} (e : List Chunk)
    (h : (w2.chunks.flatten).Perm (w1.chunks.flatten ++ e)) :
    coordBag w1 ≤ coordBag w2 := by
  unfold coordBag
  rw [Multiset.coe_eq_coe.mpr (h.map (fun c => (c.x, c.y))), List.map_append,
    ← Multiset.coe_add]
  exact Multiset.le_add_right _ _

theorem coordBag_le_findChunkIdx (w : World) (x y : ℤ) :
    coordBag w ≤ coordBag (w.findChunkIdx x y).2.2 := by
  rcases findChunkIdx_cases w x y with
    ⟨r, k, hr, hk, heq, hkey, hx⟩ | ⟨r, hr, heq, hkey⟩ | heq
  · rw [heq]
  · rw [heq]
    exact coordBag_le_of_flatten_perm_append [Chunk.generate x y w.noise w.seed]
      (flatten_set_append w.chunks r hr [Chunk.generate x y w.noise w.seed])
  · rw [heq]
    refine coordBag_le_of_flatten_perm_append [Chunk.generate x y w.noise w.seed] ?_
    rw [show ((w.chunks ++ [[Chunk.generate x y w.noise w.seed]]).flatten) =
      w.chunks.flatten ++ [Chunk.generate x y w.noise w.seed] by simp]

theorem map_set_self {α β : Type} (f : α → β) (l : List α) (k : ℕ) (c : α)
    (hk : k < l.length) (hc : f c = f (l[k])) :
    List.map f (l.set k c) = List.map f l := by
  rw [List.map_set]
  have hmk : k < (List.map f l).length := by
    rw [List.length_map]
    exact hk
  apply list_set_self hmk
  rw [@List.getElem_map _ _ f l k hmk]
  exact hc.symm

theorem coordBag_set_entry (w : World) (r k : ℕ) (p : Pixel) :
    coordBag
      { w with
        chunks := w.chunks.set r ((w.chunks.getD r []).set k
          (((w.chunks.getD r []).getD k default).set_pixel p)) } = coordBag w := by
  by_cases hrlen : r < w.chunks.length
  · have hgd : w.chunks.getD r [] = w.chunks[r] := List.getD_eq_getElem _ _ hrlen
    by_cases hklen : k < (w.chunks.getD r []).length
    · have hcoord : (fun c : Chunk => (c.x, c.y))
          (((w.chunks.getD r []).getD k default).set_pixel p) =
          (fun c : Chunk => (c.x, c.y)) ((w.chunks.getD r [])[k]) := by
        show ((((w.chunks.getD r []).getD k default).set_pixel p).x,
          (((w.chunks.getD r []).getD k default).set_pixel p).y) = _
        rw [(set_pixel_coords _ p).1, (set_pixel_coords _ p).2,
          List.getD_eq_getElem _ _ hklen]
      have h1 : List.map (fun c : Chunk => (c.x, c.y))
          ((w.chunks.getD r []).set k (((w.chunks.getD r []).getD k default).set_pixel p)) =
          List.map (fun c : Chunk => (c.x, c.y)) (w.chunks.getD r []) :=
        map_set_self _ _ k _ hklen hcoord
      have h2 : List.map (List.map (fun c : Chunk => (c.x, c.y)))
          (w.chunks.set r ((w.chunks.getD r []).set k
            (((w.chunks.getD r []).getD k default).set_pixel p))) =
          List.map (List.map (fun c : Chunk => (c.x, c.y))) w.chunks := by
        apply map_set_self _ _ r _ hrlen
        rw [h1, hgd]
      unfold coordBag
      congr 1
      rw [List.map_flatten, List.map_flatten, h2]
    · rw [List.set_eq_of_length_le
        (show (w.chunks.getD r []).length ≤ k by omega)]
      rw [list_set_self hrlen hgd.symm]
  · rw [List.set_eq_of_length_le (show w.chunks.length ≤ r by omega)]

theorem coordBag_le_set_pixel (w : World) (x y : ℤ) (p : Pixel) :
    coordBag w ≤ coordBag (w.set_pixel x y p) := by
  have h2 : coordBag (w.set_pixel x y p) =
      coordBag (w.findChunkIdx (sarI64 x 4) (sarI64 y 4)).2.2 :=
    coordBag_set_entry (w.findChunkIdx (sarI64 x 4) (sarI64 y 4)).2.2
      (w.findChunkIdx (sarI64 x 4) (sarI64 y 4)).1
      (w.findChunkIdx (sarI64 x 4) (sarI64 y 4)).2.1 p
  rw [h2]
  exact coordBag_le_findChunkIdx w (sarI64 x 4) (sarI64 y 4)

theorem coordBag_sort_chunks (w : World) : coordBag w.sort_chunks = coordBag w := by
  have hperm : (w.sort_chunks.chunks.flatten).Perm w.chunks.flatten := by
    have h1 : w.sort_chunks.chunks =
        (List.insertionSort (fun ra rb => rowKey ra ≤ rowKey rb) w.chunks).map
          (fun row => List.insertionSort (fun a b : Chunk => a.x ≤ b.x) row) := rfl
    rw [h1]
    exact (flatten_map_perm _ (fun a => List.perm_insertionSort _ a) _).trans
      ((List.perm_insertionSort _ w.chunks).flatten)
  unfold coordBag
  exact Multiset.coe_eq_coe.mpr (hperm.map _)

theorem coordBag_le_apply (w : World) (op : WOp) : coordBag w ≤ coordBag (WOp.apply w op) := by
  rcases op with ⟨x, y⟩ | ⟨x, y, p⟩ | _
  · exact coordBag_le_findChunkIdx w x y
  · exact coordBag_le_set_pixel w x y p
  · show coordBag w ≤ coordBag w.sort_chunks
    rw [coordBag_sort_chunks]

/-- C10: every world reachable from `World::new` through any sequence of
`get_chunk`, `set_cell` and `sort_chunks` keeps its stored chunks grouped
into rows of equal `y` coordinate — each chunk's `y` equals its row's key
`row[0].y`, a multiple of 16 (16 times the row's chunk-grid coordinate) —
and no operation ever removes a chunk: the multiset of stored chunk
origins only grows under every single operation. -/
theorem c10_rows_grouped_no_removal :
    (∀ (noise : ℚ → ℚ → ℕ → ℚ) (seed : ℕ) (ops : List WOp),
      RowsGrouped (runOps (World.new noise seed) ops)) ∧
    (∀ (w : World) (op : WOp), coordBag w ≤ coordBag (WOp.apply w op)) :=
  ⟨rowsGrouped_runOps, coordBag_le_apply⟩

end Spellcoder
